import Mathlib

/-!
Verification of the minimotif scoring engine (src/minimotif.c) against its
natural-language specification.

The C program is embedded shallowly:

* machine `int` values become `ℤ` (the program's own bounds, W ≤ 50 and
  |cell| ≤ 10⁵ · W, keep every computation far from 32-bit overflow, so no
  wrap-around modelling is needed);
* `double` computations on probabilities are embedded as exact `ℚ`
  arithmetic (the program only adds, multiplies and divides them);
* the one transcendental step, `log2` in `calc_score`, is embedded as the
  exact real `Real.logb 2`, and the C cast `(int)` (truncation toward
  zero) as `truncToZero`;
* the PWM arrays `pwm[MAX_MOTIF_SIZE]` / `pwm_rc` (5 slots per position)
  become total functions `ℕ → ℕ → ℤ` (position, letter-index), carrying
  the `init_motif` background values (0, and AMBIGUITY_SCORE in slot 4)
  outside the written region;
* fatal `badexit` paths become `Except`/`Option` errors.
-/

namespace Minimotif

/-- AMBIGUITY_SCORE from minimotif.c. -/
def AMB : ℤ := -10000000

/-- INT_MAX, used by `set_threshold` as the "unreachable" sentinel. -/
def INTMAX : ℤ := 2147483647

/-- The `char2index` table: A/a ↦ 0, C/c ↦ 1, G/g ↦ 2, T/t/U/u ↦ 3, every
other byte ↦ 4 (the ambiguity slot). -/
def char2index (b : ℕ) : ℕ :=
  if b = 65 ∨ b = 97 then 0
  else if b = 67 ∨ b = 99 then 1
  else if b = 71 ∨ b = 103 then 2
  else if b = 84 ∨ b = 116 ∨ b = 85 ∨ b = 117 then 3
  else 4

theorem char2index_lt_five (b : ℕ) : char2index b < 5 := by
  unfold char2index; split_ifs <;> omega

theorem char2index_cases (b : ℕ) :
    char2index b = 0 ∨ char2index b = 1 ∨ char2index b = 2 ∨
      char2index b = 3 ∨ char2index b = 4 := by
  unfold char2index; split_ifs <;> simp

/-- A parsed motif: its width (`motif->size`) and its forward PWM.
`pwm pos k` is `motif->pwm[k + pos*5]`; positions ≥ `size` and slot 4 hold
the `init_motif` fill (0 resp. `AMB`). -/
structure Motif where
  size : ℕ
  pwm : ℕ → ℕ → ℤ

/-- The cells visited by the `get_pwm_min` / `get_pwm_max` loops
(positions 0..size-1, letters 0..3). -/
def motifCells (m : Motif) : List ℤ :=
  (List.range m.size).flatMap
    (fun pos => [m.pwm pos 0, m.pwm pos 1, m.pwm pos 2, m.pwm pos 3])

/-- `get_pwm_min`: running minimum over all cells, starting from 0. -/
def pwmMin (m : Motif) : ℤ := (motifCells m).foldl min 0

/-- `get_pwm_max`: running maximum over all cells, starting from 0. -/
def pwmMax (m : Motif) : ℤ := (motifCells m).foldl max 0

theorem foldl_min_le_init (l : List ℤ) (a : ℤ) : l.foldl min a ≤ a := by
  induction l generalizing a with
  | nil => exact le_refl a
  | cons x t ih => exact le_trans (ih (min a x)) (min_le_left a x)

theorem foldl_min_le_mem {l : List ℤ} {x : ℤ} (hx : x ∈ l) (a : ℤ) :
    l.foldl min a ≤ x := by
  induction l generalizing a with
  | nil => cases hx
  | cons y t ih =>
    rcases List.mem_cons.mp hx with h | h
    · subst h
      exact le_trans (foldl_min_le_init t (min a x)) (min_le_right a x)
    · exact ih h (min a y)

theorem le_foldl_min {l : List ℤ} {c a : ℤ} (ha : c ≤ a)
    (hl : ∀ x ∈ l, c ≤ x) : c ≤ l.foldl min a := by
  induction l generalizing a with
  | nil => exact ha
  | cons y t ih =>
    exact ih (le_min ha (hl y (List.mem_cons_self y t)))
      (fun x hx => hl x (List.mem_cons_of_mem y hx))

theorem init_le_foldl_max (l : List ℤ) (a : ℤ) : a ≤ l.foldl max a := by
  induction l generalizing a with
  | nil => exact le_refl a
  | cons x t ih => exact le_trans (le_max_left a x) (ih (max a x))

theorem mem_le_foldl_max {l : List ℤ} {x : ℤ} (hx : x ∈ l) (a : ℤ) :
    x ≤ l.foldl max a := by
  induction l generalizing a with
  | nil => cases hx
  | cons y t ih =>
    rcases List.mem_cons.mp hx with h | h
    · subst h
      exact le_trans (le_max_right a x) (init_le_foldl_max t (max a x))
    · exact ih h (max a y)

theorem foldl_max_le {l : List ℤ} {c a : ℤ} (ha : a ≤ c)
    (hl : ∀ x ∈ l, x ≤ c) : l.foldl max a ≤ c := by
  induction l generalizing a with
  | nil => exact ha
  | cons y t ih =>
    exact ih (max_le ha (hl y (List.mem_cons_self y t)))
      (fun x hx => hl x (List.mem_cons_of_mem y hx))

theorem mem_motifCells {m : Motif} {pos j : ℕ}
    (hpos : pos < m.size) (hj : j < 4) : m.pwm pos j ∈ motifCells m := by
  unfold motifCells
  refine List.mem_flatMap.mpr ⟨pos, List.mem_range.mpr hpos, ?_⟩
  interval_cases j <;> simp

theorem pwmMin_nonpos (m : Motif) : pwmMin m ≤ 0 := foldl_min_le_init _ _

theorem pwmMin_le (m : Motif) {pos j : ℕ} (hpos : pos < m.size) (hj : j < 4) :
    pwmMin m ≤ m.pwm pos j :=
  foldl_min_le_mem (mem_motifCells hpos hj) 0

theorem pwmMax_nonneg (m : Motif) : 0 ≤ pwmMax m := init_le_foldl_max _ _

theorem le_pwmMax (m : Motif) {pos j : ℕ} (hpos : pos < m.size) (hj : j < 4) :
    m.pwm pos j ≤ pwmMax m :=
  mem_le_foldl_max (mem_motifCells hpos hj) 0

theorem pwmMin_le_pwmMax (m : Motif) : pwmMin m ≤ pwmMax m :=
  le_trans (pwmMin_nonpos m) (pwmMax_nonneg m)

theorem pwmMin_ge {m : Motif} {c : ℤ} (hc : c ≤ 0)
    (h : ∀ pos j, pos < m.size → j < 4 → c ≤ m.pwm pos j) :
    c ≤ pwmMin m := by
  refine le_foldl_min hc ?_
  intro x hx
  rcases List.mem_flatMap.mp hx with ⟨pos, hpos, hxin⟩
  have hpos' := List.mem_range.mp hpos
  simp only [List.mem_cons, List.not_mem_nil, or_false] at hxin
  rcases hxin with h0 | h1 | h2 | h3
  · exact h0 ▸ h pos 0 hpos' (by omega)
  · exact h1 ▸ h pos 1 hpos' (by omega)
  · exact h2 ▸ h pos 2 hpos' (by omega)
  · exact h3 ▸ h pos 3 hpos' (by omega)

/-- `fill_pwm_rc`: contents of `motif->pwm_rc` after the filling loop.
Rows `size-1-pos` get the complemented letters of row `pos`; everything
the loop does not write keeps its `init_motif` value (slot 4 = `AMB`,
otherwise 0). -/
def fillPwmRC (m : Motif) : ℕ → ℕ → ℤ := fun pos k =>
  if pos < m.size ∧ k < 4 then m.pwm (m.size - 1 - pos) (3 - k)
  else if k = 4 then AMB else 0

/-- Truncation toward zero, the semantics of the C cast `(int)` applied to
a double. -/
noncomputable def truncToZero (y : ℝ) : ℤ := if 0 ≤ y then ⌊y⌋ else ⌈y⌉

/-- `calc_score(prob_i, bkg_i)`: x = prob·nsites; x += pseudocount/4;
x /= nsites + pseudocount; return (int)(log2(x / bkg)·1000).  The double
arithmetic on the rationals is exact; `log2` is the exact real log. -/
noncomputable def calc_score (nsites pseudocount : ℤ) (prob bkg : ℚ) : ℤ :=
  truncToZero
    (Real.logb 2
      (((prob * nsites + (pseudocount : ℚ) / 4) / ((nsites : ℚ) + pseudocount)) / bkg : ℚ)
      * 1000)

/-- Concrete `calc_score` evaluations used by the C1/C9 analyses: a
full-probability base under a uniform background stores 1998; a
zero-probability base stores -9967; probability 1/10 stores -1319 (the C
cast truncates 1000·log₂(401/1001) ≈ -1319.77 toward zero); and rounding
that same value instead gives -1320.  The logarithms are settled exactly
through integer power certificates such as
2^1998·1001^1000 ≤ 4001^1000 < 2^1999·1001^1000. -/
theorem calc_score_vals :
    calc_score 1000 1 1 (1/4) = 1998 ∧
    calc_score 1000 1 0 (1/4) = -9967 ∧
    calc_score 1000 1 (1/10) (1/4) = -1319 ∧
    round (Real.logb 2 ((401:ℝ)/1001) * 1000) = -1320 := by
  have floor_logb : ∀ {x : ℝ}, 0 < x → ∀ {m : ℤ}, (2:ℝ) ^ m ≤ x →
      x < (2:ℝ) ^ (m + 1) → ⌊Real.logb 2 x⌋ = m := by
    intro x hx m h1 h2
    rw [Int.floor_eq_iff]
    constructor
    · refine (Real.le_logb_iff_rpow_le one_lt_two hx).mpr ?_
      rw [Real.rpow_intCast]
      exact h1
    · refine (Real.logb_lt_iff_lt_rpow one_lt_two hx).mpr ?_
      have hcast : ((m : ℝ) + 1) = (((m + 1 : ℤ)) : ℝ) := by push_cast; ring
      rw [hcast, Real.rpow_intCast]
      exact h2
  have floor_pos : ∀ (a b k mm : ℕ), 0 < a → 0 < b →
      2 ^ mm * b ^ k ≤ a ^ k → a ^ k < 2 ^ (mm + 1) * b ^ k →
      ⌊(k : ℝ) * Real.logb 2 ((a : ℝ) / b)⌋ = (mm : ℤ) := by
    intro a b k mm ha hb h1 h2
    have hbR : (0:ℝ) < (b : ℝ) ^ k := by positivity
    have hxR : (0:ℝ) < ((a : ℝ) / b) ^ k := by positivity
    have hdiv : ((a : ℝ) / b) ^ k = (a : ℝ) ^ k / (b : ℝ) ^ k := div_pow _ _ _
    have h1R : (2:ℝ) ^ (mm : ℤ) ≤ ((a : ℝ) / b) ^ k := by
      rw [hdiv, le_div_iff₀ hbR, zpow_natCast]
      exact_mod_cast h1
    have h2R : ((a : ℝ) / b) ^ k < (2:ℝ) ^ ((mm : ℤ) + 1) := by
      rw [hdiv, div_lt_iff₀ hbR]
      have hc : ((mm : ℤ) + 1) = ((mm + 1 : ℕ) : ℤ) := by push_cast; ring
      rw [hc, zpow_natCast]
      exact_mod_cast h2
    rw [← Real.logb_pow, floor_logb hxR h1R h2R]
  have floor_neg : ∀ (a b k t : ℕ), 0 < a → 0 < b →
      b ^ k ≤ 2 ^ t * a ^ k → 2 ^ t * a ^ k < 2 * b ^ k →
      ⌊(k : ℝ) * Real.logb 2 ((a : ℝ) / b)⌋ = -(t : ℤ) := by
    intro a b k t ha hb h1 h2
    have hbR : (0:ℝ) < (b : ℝ) ^ k := by positivity
    have h2tR : (0:ℝ) < (2:ℝ) ^ (t : ℕ) := by positivity
    have hxR : (0:ℝ) < ((a : ℝ) / b) ^ k := by positivity
    have hdiv : ((a : ℝ) / b) ^ k = (a : ℝ) ^ k / (b : ℝ) ^ k := div_pow _ _ _
    have h1R : (2:ℝ) ^ (-(t : ℤ)) ≤ ((a : ℝ) / b) ^ k := by
      rw [zpow_neg, zpow_natCast, hdiv, inv_eq_one_div, div_le_div_iff₀ h2tR hbR]
      have hc : ((b : ℝ)) ^ k ≤ 2 ^ t * (a : ℝ) ^ k := by exact_mod_cast h1
      linarith
    have h2R : ((a : ℝ) / b) ^ k < (2:ℝ) ^ (-(t : ℤ) + 1) := by
      have hz : (2:ℝ) ^ (-(t : ℤ) + 1) = 2 / (2:ℝ) ^ (t : ℕ) := by
        rw [zpow_add₀ (two_ne_zero), zpow_neg, zpow_natCast, zpow_one]
        ring
      rw [hz, hdiv, div_lt_div_iff₀ hbR h2tR]
      have hc : (2:ℝ) ^ t * (a : ℝ) ^ k < 2 * (b : ℝ) ^ k := by exact_mod_cast h2
      linarith
    rw [← Real.logb_pow, floor_logb hxR h1R h2R]
  have t2z : ∀ {y : ℝ} {z : ℤ}, 0 ≤ z → ⌊y⌋ = z → truncToZero y = z := by
    intro y z hz h
    have hy : (0:ℝ) ≤ y := by
      have h1 : ((z : ℤ) : ℝ) ≤ y := h ▸ Int.floor_le y
      have h2 : (0:ℝ) ≤ ((z : ℤ) : ℝ) := by exact_mod_cast hz
      linarith
    have hv : truncToZero y = if 0 ≤ y then ⌊y⌋ else ⌈y⌉ := rfl
    rw [hv, if_pos hy, h]
  have t2zn : ∀ {y : ℝ} {z : ℤ}, z ≤ -1 → ⌊-y⌋ = -z → truncToZero y = z := by
    intro y z hz h
    have hy : y < 0 := by
      have h1 : ((-z : ℤ) : ℝ) ≤ -y := h ▸ Int.floor_le (-y)
      have h2 : (1:ℝ) ≤ ((-z : ℤ) : ℝ) := by exact_mod_cast (by omega : 1 ≤ -z)
      linarith
    have hv : truncToZero y = if 0 ≤ y then ⌊y⌋ else ⌈y⌉ := rfl
    rw [hv, if_neg (not_le.mpr hy)]
    have hc : ⌊-y⌋ = -⌈y⌉ := Int.floor_neg
    omega
  refine ⟨?_, ?_, ?_, ?_⟩
  · unfold calc_score
    norm_num
    have h := floor_pos 4001 1001 1000 1998 (by norm_num) (by norm_num)
      (by norm_num) (by norm_num)
    push_cast at h
    rw [mul_comm]
    exact t2z (by norm_num) h
  · unfold calc_score
    norm_num
    have h := floor_pos 1001 1 1000 9967 (by norm_num) (by norm_num)
      (by norm_num) (by norm_num)
    push_cast at h
    refine t2zn (by norm_num) ?_
    have hneg : -(Real.logb 2 (1/1001) * 1000) = (1000:ℝ) * Real.logb 2 (1001/1) := by
      rw [show (1001:ℝ)/1 = ((1:ℝ)/1001)⁻¹ by norm_num, Real.logb_inv]
      ring
    rw [hneg]
    simpa using h
  · unfold calc_score
    norm_num
    have h := floor_pos 1001 401 1000 1319 (by norm_num) (by norm_num)
      (by norm_num) (by norm_num)
    push_cast at h
    refine t2zn (by norm_num) ?_
    have hneg : -(Real.logb 2 (401/1001) * 1000) = (1000:ℝ) * Real.logb 2 (1001/401) := by
      rw [show (1001:ℝ)/401 = ((401:ℝ)/1001)⁻¹ by norm_num, Real.logb_inv]
      ring
    rw [hneg, h]
    norm_num
  · have h := floor_neg 401 1001 2000 2640 (by norm_num) (by norm_num)
      (by norm_num) (by norm_num)
    push_cast at h
    obtain ⟨hl, hr⟩ := Int.floor_eq_iff.mp h
    push_cast at hl hr
    rw [round_eq, Int.floor_eq_iff]
    push_cast
    constructor <;> linarith

/-- Any PWM cell the program can construct is bounded: for a site count and
pseudocount in `[1, 2^31]` (both are positive `int`s in the C code), a column
probability in `[0, 2]` (JASPAR counts over the column-0 sum stay below 2 even
when the later columns disagree with it) and a validated background entry in
`[0.001, 1]`, `calc_score` lands in `[-100000, 100000]`.  This discharges, for
every motif the program builds, the cell-magnitude hypothesis used in the
ambiguous-window analysis. -/
theorem calc_score_bounded (nsites pseudocount : ℤ) (prob bkg : ℚ)
    (hn1 : 1 ≤ nsites) (hn2 : nsites ≤ 2 ^ 31)
    (hc1 : 1 ≤ pseudocount) (hc2 : pseudocount ≤ 2 ^ 31)
    (hp1 : 0 ≤ prob) (hp2 : prob ≤ 2)
    (hb1 : 1 / 1000 ≤ bkg) (hb2 : bkg ≤ 1) :
    -100000 ≤ calc_score nsites pseudocount prob bkg ∧
      calc_score nsites pseudocount prob bkg ≤ 100000 := by
  have hnq1 : (1 : ℚ) ≤ (nsites : ℚ) := by exact_mod_cast hn1
  have hnq2 : (nsites : ℚ) ≤ 2 ^ 31 := by exact_mod_cast hn2
  have hcq1 : (1 : ℚ) ≤ (pseudocount : ℚ) := by exact_mod_cast hc1
  have hcq2 : (pseudocount : ℚ) ≤ 2 ^ 31 := by exact_mod_cast hc2
  have hd0 : (0 : ℚ) < (nsites : ℚ) + pseudocount := by linarith
  have hb0 : (0 : ℚ) < bkg := by linarith
  have hmul0 : (0 : ℚ) ≤ prob * nsites := mul_nonneg hp1 (by linarith)
  have hmul2 : prob * nsites ≤ 2 * nsites :=
    mul_le_mul_of_nonneg_right hp2 (by linarith)
  have hu1 : (1 : ℚ) / 4 ≤ prob * nsites + (pseudocount : ℚ) / 4 := by linarith
  have hu2 : prob * nsites + (pseudocount : ℚ) / 4 ≤
      2 * ((nsites : ℚ) + pseudocount) := by linarith
  have hx1 : (1 : ℚ) / 2 ^ 34 ≤
      (prob * nsites + (pseudocount : ℚ) / 4) / ((nsites : ℚ) + pseudocount) := by
    rw [div_le_div_iff₀ (by norm_num) hd0]
    have h3 : (1/4 : ℚ) * 2 ^ 34 ≤ (prob * nsites + (pseudocount : ℚ) / 4) * 2 ^ 34 :=
      mul_le_mul_of_nonneg_right hu1 (by norm_num)
    linarith
  have hx2 : (prob * nsites + (pseudocount : ℚ) / 4) / ((nsites : ℚ) + pseudocount)
      ≤ 2 := by
    rw [div_le_iff₀ hd0]; linarith
  have hq1 : (1 : ℚ) / 2 ^ 34 ≤
      ((prob * nsites + (pseudocount : ℚ) / 4) / ((nsites : ℚ) + pseudocount)) / bkg := by
    rw [le_div_iff₀ hb0]
    have h1 : (1/2^34 : ℚ) * bkg ≤ (1/2^34 : ℚ) * 1 :=
      mul_le_mul_of_nonneg_left hb2 (by norm_num)
    linarith
  have hq2 : ((prob * nsites + (pseudocount : ℚ) / 4) / ((nsites : ℚ) + pseudocount)) / bkg
      ≤ 2 ^ 11 := by
    rw [div_le_iff₀ hb0]
    have h1 : (2:ℚ) ^ 11 * (1/1000) ≤ 2 ^ 11 * bkg :=
      mul_le_mul_of_nonneg_left hb1 (by norm_num)
    linarith
  have hq1R : (1 : ℝ) / 2 ^ 34 ≤
      ((((prob * nsites + (pseudocount : ℚ) / 4) / ((nsites : ℚ) + pseudocount)) / bkg : ℚ) : ℝ) := by
    have h : (((1 : ℚ) / 2 ^ 34 : ℚ) : ℝ) ≤
        ((((prob * nsites + (pseudocount : ℚ) / 4) / ((nsites : ℚ) + pseudocount)) / bkg : ℚ) : ℝ) :=
      Rat.cast_le.mpr hq1
    calc (1 : ℝ) / 2 ^ 34 = (((1 : ℚ) / 2 ^ 34 : ℚ) : ℝ) := by norm_num
      _ ≤ _ := h
  have hq2R : ((((prob * nsites + (pseudocount : ℚ) / 4) / ((nsites : ℚ) + pseudocount)) / bkg : ℚ) : ℝ)
      ≤ 2 ^ 11 := by
    have h : ((((prob * nsites + (pseudocount : ℚ) / 4) / ((nsites : ℚ) + pseudocount)) / bkg : ℚ) : ℝ)
        ≤ (((2 : ℚ) ^ 11 : ℚ) : ℝ) := Rat.cast_le.mpr hq2
    calc _ ≤ (((2 : ℚ) ^ 11 : ℚ) : ℝ) := h
      _ = (2 : ℝ) ^ 11 := by norm_num
  have hqpos : (0 : ℝ) <
      ((((prob * nsites + (pseudocount : ℚ) / 4) / ((nsites : ℚ) + pseudocount)) / bkg : ℚ) : ℝ) :=
    lt_of_lt_of_le (by positivity) hq1R
  have hlog1 : -(34 : ℝ) ≤ Real.logb 2
      ((((prob * nsites + (pseudocount : ℚ) / 4) / ((nsites : ℚ) + pseudocount)) / bkg : ℚ) : ℝ) := by
    have h2 : Real.logb 2 ((1 : ℝ) / 2 ^ 34) = -((34 : ℕ) : ℝ) := by
      rw [one_div, ← Real.rpow_natCast, ← Real.rpow_neg (by norm_num : (0:ℝ) ≤ 2)]
      exact Real.logb_rpow (by norm_num) (by norm_num)
    calc -(34 : ℝ) = Real.logb 2 ((1 : ℝ) / 2 ^ 34) := by rw [h2]; norm_num
      _ ≤ _ := Real.logb_le_logb_of_le one_lt_two (by positivity) hq1R
  have hlog2 : Real.logb 2
      ((((prob * nsites + (pseudocount : ℚ) / 4) / ((nsites : ℚ) + pseudocount)) / bkg : ℚ) : ℝ)
      ≤ (11 : ℝ) := by
    have h2 : Real.logb 2 ((2 : ℝ) ^ (11 : ℕ)) = ((11 : ℕ) : ℝ) := by
      rw [← Real.rpow_natCast]
      exact Real.logb_rpow (by norm_num) (by norm_num)
    calc Real.logb 2 _ ≤ Real.logb 2 ((2 : ℝ) ^ (11 : ℕ)) :=
          Real.logb_le_logb_of_le one_lt_two hqpos hq2R
      _ = (11 : ℝ) := by rw [h2]; norm_num
  have t2b : ∀ (y : ℝ) (B : ℤ), -(B : ℝ) ≤ y → y ≤ (B : ℝ) →
      -B ≤ truncToZero y ∧ truncToZero y ≤ B := by
    intro y B h1 h2
    have hv : truncToZero y = if 0 ≤ y then ⌊y⌋ else ⌈y⌉ := rfl
    rw [hv]
    by_cases hy : 0 ≤ y
    · rw [if_pos hy]
      refine ⟨Int.le_floor.mpr (by exact_mod_cast h1), ?_⟩
      exact_mod_cast le_trans (Int.floor_le y) h2
    · rw [if_neg hy]
      refine ⟨?_, Int.ceil_le.mpr (by exact_mod_cast h2)⟩
      exact_mod_cast le_trans h1 (Int.le_ceil y)
  unfold calc_score
  apply t2b
  · push_cast at hlog1 ⊢
    linarith
  · push_cast at hlog2 ⊢
    linarith


/-- `init_motif`: size 0, every cell 0 except the ambiguity slot 4 of each
position, which holds `AMB`. -/
def initMotif : Motif :=
  { size := 0, pwm := fun _ k => if k = 4 then AMB else 0 }

/-- One `add_motif_column` call (after `get_line_probs`/`normalize_probs`):
the four `set_score` writes for position `m.size`, using
`calc_score(probs[k], bkg[k])`, and the `size = pos_i + 1` update done by
the reading loop. -/
noncomputable def addMotifColumn (nsites pseudocount : ℤ) (bkg : ℕ → ℚ)
    (m : Motif) (probs : ℕ → ℚ) : Motif :=
  { size := m.size + 1,
    pwm := fun pos k =>
      if pos = m.size ∧ k < 4 then calc_score nsites pseudocount (probs k) (bkg k)
      else m.pwm pos k }

/-- A PPM-format motif (MEME or HOMER): columns added one at a time to a
fresh `init_motif`. -/
noncomputable def buildPPM (nsites pseudocount : ℤ) (bkg : ℕ → ℚ)
    (cols : List (ℕ → ℚ)) : Motif :=
  cols.foldl (addMotifColumn nsites pseudocount bkg) initMotif

/-- Closed form of the PPM builder: cell `(pos, k)` of the built motif holds
`calc_score` of column `pos` at letter `k` for `pos < |cols|`, `k < 4`; the
ambiguity slot keeps `AMB` and everything else keeps 0. -/
theorem buildPPM_pwm (nsites pseudocount : ℤ) (bkg : ℕ → ℚ)
    (cols : List (ℕ → ℚ)) (pos k : ℕ) :
    (buildPPM nsites pseudocount bkg cols).pwm pos k =
      if pos < cols.length ∧ k < 4 then
        calc_score nsites pseudocount (cols.getD pos (fun _ => 0) k) (bkg k)
      else if k = 4 then AMB else 0 := by
  have key : ∀ (l : List (ℕ → ℚ)) (m : Motif) (pos k : ℕ),
      (l.foldl (addMotifColumn nsites pseudocount bkg) m).pwm pos k =
        if m.size ≤ pos ∧ pos < m.size + l.length ∧ k < 4 then
          calc_score nsites pseudocount (l.getD (pos - m.size) (fun _ => 0) k) (bkg k)
        else m.pwm pos k := by
    intro l
    induction l with
    | nil =>
      intro m pos k
      simp only [List.foldl_nil, List.length_nil]
      rw [if_neg (by omega)]
    | cons c t ih =>
      intro m pos k
      simp only [List.foldl_cons, List.length_cons]
      rw [ih]
      have hsz : (addMotifColumn nsites pseudocount bkg m c).size = m.size + 1 := rfl
      have hpwm : ∀ pos k, (addMotifColumn nsites pseudocount bkg m c).pwm pos k =
          if pos = m.size ∧ k < 4 then calc_score nsites pseudocount (c k) (bkg k)
          else m.pwm pos k := fun _ _ => rfl
      rw [hsz, hpwm]
      by_cases h1 : m.size + 1 ≤ pos ∧ pos < m.size + 1 + t.length ∧ k < 4
      · rw [if_pos h1, if_pos (by omega)]
        have hp : pos - m.size = (pos - (m.size + 1)) + 1 := by omega
        rw [hp, List.getD_cons_succ]
      · rw [if_neg h1]
        by_cases h2 : pos = m.size ∧ k < 4
        · rw [if_pos h2, if_pos (by omega)]
          have hp : pos - m.size = 0 := by omega
          rw [hp, List.getD_cons_zero]
        · rw [if_neg h2, if_neg (by omega)]
  have hfold : buildPPM nsites pseudocount bkg cols =
      cols.foldl (addMotifColumn nsites pseudocount bkg) initMotif := rfl
  have hsz0 : initMotif.size = 0 := rfl
  have hpwm0 : ∀ pos k, initMotif.pwm pos k = if k = 4 then AMB else 0 :=
    fun _ _ => rfl
  rw [hfold, key, hsz0, hpwm0]
  by_cases hc : pos < cols.length ∧ k < 4
  · rw [if_pos (by omega), if_pos hc]
    simp
  · rw [if_neg (by omega), if_neg hc]

/-- The column-0 count sum `nsites` computed at the start of `pcm_to_pwm`. -/
def jasparColSum (m : Motif) : ℤ :=
  m.pwm 0 0 + m.pwm 0 1 + m.pwm 0 2 + m.pwm 0 3

/-- `pcm_to_pwm` (JASPAR): the raw counts stored in the PWM cells are
replaced in place by `calc_score(count / nsites, bkg)`, where `nsites` is
the column-0 sum.  (`calc_score` itself smooths with the `-n` site count
`nsites` and the `-p` pseudocount, which are separate from the column
sum.) -/
noncomputable def pcmToPwm (nsites pseudocount : ℤ) (bkg : ℕ → ℚ) (m : Motif) : Motif :=
  { size := m.size,
    pwm := fun pos k =>
      if pos < m.size ∧ k < 4 then
        calc_score nsites pseudocount ((m.pwm pos k : ℚ) / (jasparColSum m : ℚ)) (bkg k)
      else m.pwm pos k }

/-- The `consensus2index` table, as an `Option`: `-1` entries become
`none`. -/
def consensus2index (b : ℕ) : Option ℕ :=
  if b = 65 ∨ b = 97 then some 0
  else if b = 66 ∨ b = 98 then some 13
  else if b = 67 ∨ b = 99 then some 1
  else if b = 68 ∨ b = 100 then some 10
  else if b = 71 ∨ b = 103 then some 2
  else if b = 72 ∨ b = 104 then some 12
  else if b = 75 ∨ b = 107 then some 8
  else if b = 77 ∨ b = 109 then some 9
  else if b = 78 ∨ b = 110 then some 14
  else if b = 82 ∨ b = 114 then some 5
  else if b = 83 ∨ b = 115 then some 7
  else if b = 84 ∨ b = 116 ∨ b = 85 ∨ b = 117 then some 3
  else if b = 86 ∨ b = 118 then some 11
  else if b = 87 ∨ b = 119 then some 6
  else if b = 89 ∨ b = 121 then some 4
  else none

/-- The `consensus2probs` table (row `i`, letter `k`); note the source
stores 0.333, not 1/3. -/
def consensus2probs (i k : ℕ) : ℚ :=
  [[1, 0, 0, 0], [0, 1, 0, 0], [0, 0, 1, 0], [0, 0, 0, 1],
   [0, 1/2, 0, 1/2], [1/2, 0, 1/2, 0], [1/2, 0, 0, 1/2], [0, 1/2, 1/2, 0],
   [0, 0, 1/2, 1/2], [1/2, 1/2, 0, 0],
   [333/1000, 0, 333/1000, 333/1000], [333/1000, 333/1000, 333/1000, 0],
   [333/1000, 333/1000, 0, 333/1000], [0, 333/1000, 333/1000, 333/1000],
   [1/4, 1/4, 1/4, 1/4]].getD i [] |>.getD k 0

/-- `add_consensus_motif`: fails (badexit) on a letter outside the IUPAC
table; otherwise builds the single motif from `consensus2probs` columns.
The oversize check (`size > MAX_MOTIF_SIZE/5`) only prints a message in
the source — it does not exit — so it does not appear here; see the C7
theorems.  The `-1` driver path forces nsites=1000, pseudocount=1 and a
uniform background. -/
noncomputable def addConsensusMotif (cons : List ℕ) : Except Unit Motif :=
  if cons.all (fun b => (consensus2index b).isSome) then
    Except.ok
      { size := cons.length,
        pwm := fun pos k =>
          if pos < cons.length ∧ k < 4 then
            calc_score 1000 1
              (consensus2probs ((consensus2index (cons.getD pos 0)).getD 0) k) (1/4)
          else if k = 4 then AMB else 0 }
  else Except.error ()

/-- `score_subseq`: sum of `pwm[pos][char2index(seq[offset+pos])]` over the
motif's positions. -/
def scoreSubseq (m : Motif) (s : List ℕ) (off : ℕ) : ℤ :=
  ∑ p in Finset.range m.size, m.pwm p (char2index (s.getD (off + p) 0))

/-- `score_subseq_rc`: the same loop over `pwm_rc`. -/
def scoreSubseqRC (m : Motif) (s : List ℕ) (off : ℕ) : ℤ :=
  ∑ p in Finset.range m.size, fillPwmRC m p (char2index (s.getD (off + p) 0))

/-- `max_score - min_score` in `fill_cdf` (a nonnegative cell-score span). -/
def cellSpan (m : Motif) : ℕ := (pwmMax m - pwmMin m).toNat

/-- `pdf_size` in `fill_cdf`: `size * (max - min) + 1`. -/
def pdfSize (m : Motif) : ℕ := m.size * cellSpan m + 1

/-- The shifted (nonnegative) cell score `get_score_i(motif,j,i) - min`. -/
def shiftS (m : Motif) (pos j : ℕ) : ℕ := (m.pwm pos j - pwmMin m).toNat

theorem shiftS_le_cellSpan (m : Motif) {pos j : ℕ}
    (hpos : pos < m.size) (hj : j < 4) : shiftS m pos j ≤ cellSpan m := by
  unfold shiftS cellSpan
  have h1 := pwmMin_le m hpos hj
  have h2 := le_pwmMax m hpos hj
  omega

/-- One position of the `fill_cdf` convolution: the body of the outer
`for i` loop.  Entries `j < max_step + max_score + 1` are zeroed and
rebuilt from the saved copy `old` (`tmp_pdf`); entries beyond keep their
previous value. -/
def convStep (m : Motif) (bkg : ℕ → ℚ) (i : ℕ) (old : ℕ → ℚ) : ℕ → ℚ :=
  fun t =>
    if t < i * cellSpan m + cellSpan m + 1 then
      ∑ j in Finset.range 4,
        (if shiftS m i j ≤ t ∧ t - shiftS m i j ≤ i * cellSpan m then
          old (t - shiftS m i j) * bkg j else 0)
    else old t

/-- The `fill_cdf` convolution state after `i` outer iterations; the array
is initialised to 1.0 everywhere. -/
def convLoop (m : Motif) (bkg : ℕ → ℚ) : ℕ → ℕ → ℚ
  | 0 => fun _ => 1
  | i + 1 => convStep m bkg i (convLoop m bkg i)

/-- The PDF after the `motif->size` convolution iterations. -/
def rawPdf (m : Motif) (bkg : ℕ → ℚ) : ℕ → ℚ := convLoop m bkg m.size

/-- `pdf_sum`. -/
def pdfTotal (m : Motif) (bkg : ℕ → ℚ) : ℚ :=
  ∑ t in Finset.range (pdfSize m), rawPdf m bkg t

/-- The defensive renormalization: applied only when `|pdf_sum - 1|`
exceeds 0.0001. -/
def normPdf (m : Motif) (bkg : ℕ → ℚ) : ℕ → ℚ :=
  if |pdfTotal m bkg - 1| > 1/10000 then
    fun t => rawPdf m bkg t / pdfTotal m bkg
  else rawPdf m bkg

/-- One step `cdf[i] += cdf[i+1]` of the suffix-sum loop. -/
def cdfStep (a : ℕ → ℚ) (i : ℕ) : ℕ → ℚ :=
  Function.update a i (a i + a (i + 1))

/-- `fill_cdf`: the suffix-sum loop `for (i = pdf_size-2; i >= 0; i--)`
applied to the (possibly renormalized) PDF. -/
def fillCdf (m : Motif) (bkg : ℕ → ℚ) : ℕ → ℚ :=
  ((List.range (pdfSize m - 1)).reverse).foldl cdfStep (normPdf m bkg)

/-- `score2pval`: `cdf[score - min * size]`. -/
def score2pval (m : Motif) (cdf : ℕ → ℚ) (score : ℤ) : ℚ :=
  cdf (score - pwmMin m * m.size).toNat

/-- The `for` search in `set_threshold`: first index `i` (scanning from
`start` with `n` indices left) with `cdf[i] < pvalue`. -/
def firstLtAux (cdf : ℕ → ℚ) (pv : ℚ) : ℕ → ℕ → Option ℕ
  | _, 0 => none
  | start, n + 1 =>
    if cdf start < pv then some start else firstLtAux cdf pv (start + 1) n

/-- `threshold_i`: the first CDF index below the p-value, or `cdf_size`. -/
def thresholdIdx (cdf : ℕ → ℚ) (R : ℕ) (pv : ℚ) : ℕ :=
  (firstLtAux cdf pv 0 R).getD R

/-- The per-position maximum of the four letter scores (the `max_pos`
computation in `set_threshold`). -/
def posMax (m : Motif) (i : ℕ) : ℤ :=
  max (max (max (m.pwm i 0) (m.pwm i 1)) (m.pwm i 2)) (m.pwm i 3)

/-- The per-position minimum (`min_pos`). -/
def posMin (m : Motif) (i : ℕ) : ℤ :=
  min (min (min (m.pwm i 0) (m.pwm i 1)) (m.pwm i 2)) (m.pwm i 3)

/-- `motif->max_score`: the best achievable ambiguity-free motif score. -/
def motifMaxScore (m : Motif) : ℤ := ∑ i in Finset.range m.size, posMax m i

/-- `motif->min_score`. -/
def motifMinScore (m : Motif) : ℤ := ∑ i in Finset.range m.size, posMin m i

/-- `set_threshold`: starting from the zero-initialised `motif->threshold`,
compute `threshold_i - (0 - min) * size`, then override with `INT_MAX`
when `score2pval(max_score) / pvalue > 1.0001`. -/
def setThreshold (m : Motif) (cdf : ℕ → ℚ) (pv : ℚ) : ℤ :=
  if score2pval m cdf (motifMaxScore m) / pv > 10001/10000 then INTMAX
  else (thresholdIdx cdf (pdfSize m) pv : ℤ) - (0 - pwmMin m) * m.size

/-- One emitted hit line of `score_seq` (the printed fields that carry
scan content: 1-based start, inclusive end, strand, p-value, raw score and
the matched forward-strand bytes). -/
structure Hit where
  start : ℕ
  stop : ℕ
  rc : Bool
  pval : ℚ
  score : ℤ
  matched : List ℕ

/-- The windows of one strand pass of `score_seq`, in ascending offset
order; a window is emitted when its score reaches the threshold. -/
def windowHits (m : Motif) (cdf : ℕ → ℚ) (T : ℤ) (s : List ℕ) (isRC : Bool) :
    List Hit :=
  (List.range (s.length - m.size + 1)).filterMap (fun i =>
    if T ≤ (if isRC then scoreSubseqRC m s i else scoreSubseq m s i) then
      some ⟨i + 1, i + m.size, isRC,
        score2pval m cdf (if isRC then scoreSubseqRC m s i else scoreSubseq m s i),
        (if isRC then scoreSubseqRC m s i else scoreSubseq m s i),
        (s.drop i).take m.size⟩
    else none)

/-- `score_seq`: returns immediately when the sequence is shorter than the
motif or the threshold is the `INT_MAX` sentinel; otherwise scans the
forward strand and then (unless `-f`) the reverse-complement strand. -/
def scanMotifSeq (m : Motif) (cdf : ℕ → ℚ) (T : ℤ) (scanRC : Bool)
    (s : List ℕ) : List Hit :=
  if s.length < m.size ∨ T = INTMAX then []
  else
    windowHits m cdf T s false ++
      (if scanRC then windowHits m cdf T s true else [])

/-- The uniform background. -/
def uniformBkg : ℕ → ℚ := fun _ => 1/4

/-- The `-1 CONSENSUS` driver path of `main`: uniform background, the
motif from `add_consensus_motif`, `fill_cdf`, `set_threshold`, then the
threshold override `motifs[0]->threshold = motifs[0]->max_score`, and the
scan of both strands. -/
noncomputable def runConsensusScan (cons s : List ℕ) : Except Unit (List Hit) :=
  (addConsensusMotif cons).map (fun m =>
    scanMotifSeq m (fillCdf m uniformBkg) (motifMaxScore m) true s)

/-- The exact distribution of the shifted score after `i` columns, as a
recursion: probability that columns `0..i-1`, drawn independently from the
background, give a shifted-score total of `t`. -/
def pdfR (m : Motif) (bkg : ℕ → ℚ) : ℕ → ℕ → ℚ
  | 0, t => if t = 0 then 1 else 0
  | i + 1, t =>
    ∑ j in Finset.range 4,
      (if shiftS m i j ≤ t then bkg j * pdfR m bkg i (t - shiftS m i j) else 0)

/-- The spec-side exact distribution: draw one base per column
independently from the background and ask for a given shifted-score
total. -/
def windowDist (m : Motif) (bkg : ℕ → ℚ) (i : ℕ) (t : ℕ) : ℚ :=
  ∑ v : Fin i → Fin 4,
    (∏ p : Fin i, bkg (v p : ℕ)) *
      (if (∑ p : Fin i, shiftS m (p : ℕ) (v p : ℕ)) = t then 1 else 0)

/-- The spec-side right tail: probability that the shifted window score is
at least `t`. -/
def tailProb (m : Motif) (bkg : ℕ → ℚ) (t : ℕ) : ℚ :=
  ∑ v : Fin m.size → Fin 4,
    (∏ p : Fin m.size, bkg (v p : ℕ)) *
      (if t ≤ ∑ p : Fin m.size, shiftS m (p : ℕ) (v p : ℕ) then 1 else 0)

/-- Splitting a tuple over `Fin (n+1)` into its first `n` entries and its
last entry. -/
def snocSplit (n : ℕ) (α : Type) : ((Fin n → α) × α) ≃ (Fin (n + 1) → α) where
  toFun p := Fin.snoc p.1 p.2
  invFun v := (Fin.init v, v (Fin.last n))
  left_inv p := by
    refine Prod.ext ?_ ?_
    · simp
    · simp
  right_inv v := by simp

theorem sum_snoc_split {M : Type} [AddCommMonoid M] (n : ℕ)
    (F : (Fin (n + 1) → Fin 4) → M) :
    (∑ v : Fin (n + 1) → Fin 4, F v) =
      ∑ j : Fin 4, ∑ g : Fin n → Fin 4, F (Fin.snoc g j) := by
  rw [← Equiv.sum_comp (snocSplit n (Fin 4)) F]
  rw [Fintype.sum_prod_type]
  rw [Finset.sum_comm]
  rfl

theorem shift_total_le (m : Motif) :
    ∀ i, i ≤ m.size → ∀ v : Fin i → Fin 4,
      (∑ p : Fin i, shiftS m (p : ℕ) (v p : ℕ)) ≤ i * cellSpan m := by
  intro i hi v
  calc (∑ p : Fin i, shiftS m (p : ℕ) (v p : ℕ))
      ≤ ∑ _p : Fin i, cellSpan m := by
        refine Finset.sum_le_sum ?_
        intro p _
        exact shiftS_le_cellSpan m (by omega) (v p).isLt
    _ = i * cellSpan m := by
        rw [Finset.sum_const, Finset.card_univ, Fintype.card_fin, smul_eq_mul]

theorem suffix_fold_eval (a : ℕ → ℚ) :
    ∀ k t, (((List.range k).reverse).foldl cdfStep a) t =
      if t < k then ∑ u in Finset.Icc t k, a u else a t := by
  intro k
  induction k generalizing a with
  | zero =>
    intro t
    simp
  | succ k ih =>
    intro t
    have hrev : (List.range (k + 1)).reverse = k :: (List.range k).reverse := by
      rw [List.range_succ, List.reverse_append]
      simp
    rw [hrev, List.foldl_cons, ih]
    have hg_at : ∀ u, u ≠ k → cdfStep a k u = a u := by
      intro u hu
      unfold cdfStep
      rw [Function.update_noteq hu]
    have hg_k : cdfStep a k k = a k + a (k + 1) := by
      unfold cdfStep
      rw [Function.update_same]
    rcases Nat.lt_trichotomy t k with hlt | heq | hgt
    · rw [if_pos hlt, if_pos (by omega)]
      obtain ⟨j, rfl⟩ : ∃ j, k = j + 1 := ⟨k - 1, by omega⟩
      rw [Finset.sum_Icc_succ_top (by omega : t ≤ j + 1) (cdfStep a (j + 1))]
      rw [Finset.sum_Icc_succ_top (by omega : t ≤ j + 1 + 1) a]
      rw [Finset.sum_Icc_succ_top (by omega : t ≤ j + 1) a]
      rw [hg_k]
      have hrest : (∑ u in Finset.Icc t j, cdfStep a (j + 1) u) =
          ∑ u in Finset.Icc t j, a u := by
        refine Finset.sum_congr rfl ?_
        intro u hu
        have hu' := Finset.mem_Icc.mp hu
        exact hg_at u (by omega)
      rw [hrest]
      ring
    · subst heq
      rw [if_neg (by omega), if_pos (by omega), hg_k]
      rw [Finset.sum_Icc_succ_top (by omega : t ≤ t + 1) a, Finset.Icc_self,
        Finset.sum_singleton]
    · rw [if_neg (by omega), if_neg (by omega), hg_at t (by omega)]

theorem fillCdf_eq_sum (m : Motif) (bkg : ℕ → ℚ) {t : ℕ} (ht : t < pdfSize m) :
    fillCdf m bkg t = ∑ u in Finset.Ico t (pdfSize m), normPdf m bkg u := by
  unfold fillCdf
  rw [suffix_fold_eval]
  have hR : 1 ≤ pdfSize m := by unfold pdfSize; omega
  rcases Nat.lt_or_ge t (pdfSize m - 1) with hlt | hge
  · rw [if_pos hlt]
    have hIcc : Finset.Icc t (pdfSize m - 1) = Finset.Ico t (pdfSize m) := by
      refine Finset.ext ?_
      intro u
      rw [Finset.mem_Icc, Finset.mem_Ico]
      omega
    rw [hIcc]
  · have hteq : t = pdfSize m - 1 := by omega
    subst hteq
    rw [if_neg (by omega)]
    have hIco : Finset.Ico (pdfSize m - 1) (pdfSize m) = {pdfSize m - 1} := by
      refine Finset.ext ?_
      intro u
      rw [Finset.mem_Ico, Finset.mem_singleton]
      omega
    rw [hIco, Finset.sum_singleton]

/-- The exact-arithmetic facts behind `fill_cdf` under a normalized
background: the raw convolution PDF equals the exact distribution `pdfR`,
its total is exactly 1, and hence the defensive renormalization is the
identity. -/
theorem normPdf_facts (m : Motif) (bkg : ℕ → ℚ)
    (hb1 : (∑ j in Finset.range 4, bkg j) = 1) :
    (∀ i t, pdfR m bkg i t = windowDist m bkg i t) ∧
    (∀ {t : ℕ}, t < pdfSize m → rawPdf m bkg t = pdfR m bkg m.size t) ∧
    pdfTotal m bkg = 1 ∧ normPdf m bkg = rawPdf m bkg := by
  have hwd : ∀ i t, pdfR m bkg i t = windowDist m bkg i t := by
    intro i
    induction i with
    | zero =>
      intro t
      simp only [pdfR, windowDist]
      rw [Fintype.sum_unique]
      simp only [Finset.univ_eq_empty, Finset.prod_empty, Finset.sum_empty]
      by_cases ht : t = 0
      · subst ht; simp
      · rw [if_neg ht, if_neg (by omega), one_mul]
    | succ i ih =>
      intro t
      simp only [pdfR, windowDist]
      rw [sum_snoc_split i]
      rw [← Fin.sum_univ_eq_sum_range
        (fun j => if shiftS m i j ≤ t then bkg j * pdfR m bkg i (t - shiftS m i j) else 0) 4]
      refine Finset.sum_congr rfl ?_
      intro j _
      have hprod : ∀ g : Fin i → Fin 4,
          (∏ p : Fin (i + 1), bkg ((Fin.snoc g j : Fin (i + 1) → Fin 4) p : ℕ)) =
            (∏ p : Fin i, bkg (g p : ℕ)) * bkg (j : ℕ) := by
        intro g
        rw [Fin.prod_univ_castSucc]
        congr 1
        · refine Finset.prod_congr rfl ?_
          intro p _
          rw [Fin.snoc_castSucc]
        · rw [Fin.snoc_last]
      have hsum : ∀ g : Fin i → Fin 4,
          (∑ p : Fin (i + 1), shiftS m (p : ℕ) ((Fin.snoc g j : Fin (i + 1) → Fin 4) p : ℕ)) =
            (∑ p : Fin i, shiftS m (p : ℕ) (g p : ℕ)) + shiftS m i (j : ℕ) := by
        intro g
        rw [Fin.sum_univ_castSucc]
        congr 1
        · refine Finset.sum_congr rfl ?_
          intro p _
          rw [Fin.snoc_castSucc, Fin.coe_castSucc]
        · rw [Fin.snoc_last, Fin.val_last]
      by_cases hs : shiftS m i (j : ℕ) ≤ t
      · rw [if_pos hs, ih, windowDist, Finset.mul_sum]
        refine Finset.sum_congr rfl ?_
        intro g _
        rw [hprod g, hsum g]
        by_cases he : (∑ p : Fin i, shiftS m (p : ℕ) (g p : ℕ)) = t - shiftS m i (j : ℕ)
        · rw [if_pos he, if_pos (by omega)]
          ring
        · rw [if_neg he, if_neg (by omega)]
          ring
      · rw [if_neg hs]
        symm
        refine Finset.sum_eq_zero ?_
        intro g _
        rw [hprod g, hsum g, if_neg (by omega), mul_zero]
  have hraw : ∀ {t : ℕ}, t < pdfSize m → rawPdf m bkg t = pdfR m bkg m.size t := by
    intro t ht
    have hsupp : ∀ i, i ≤ m.size → ∀ t, i * cellSpan m < t → pdfR m bkg i t = 0 := by
      intro i
      induction i with
      | zero =>
        intro _ t ht
        simp only [pdfR]
        rw [if_neg (by omega)]
      | succ i ih =>
        intro hi t ht
        simp only [pdfR]
        refine Finset.sum_eq_zero ?_
        intro j hj
        by_cases hs : shiftS m i j ≤ t
        · rw [if_pos hs]
          have hD : shiftS m i j ≤ cellSpan m :=
            shiftS_le_cellSpan m (by omega) (Finset.mem_range.mp hj)
          have h0 : pdfR m bkg i (t - shiftS m i j) = 0 := by
            refine ih (by omega) _ ?_
            have hmul : (i + 1) * cellSpan m = i * cellSpan m + cellSpan m := by ring
            omega
          rw [h0, mul_zero]
        · rw [if_neg hs]
    have hconv : ∀ i, i ≤ m.size → ∀ t, t ≤ i * cellSpan m →
        convLoop m bkg i t = pdfR m bkg i t := by
      intro i
      induction i with
      | zero =>
        intro _ t ht
        have ht0 : t = 0 := by omega
        subst ht0
        simp [convLoop, pdfR]
      | succ i ih =>
        intro hi t ht
        have hcond : t < i * cellSpan m + cellSpan m + 1 := by
          have : (i + 1) * cellSpan m = i * cellSpan m + cellSpan m := by ring
          omega
        simp only [convLoop, convStep, pdfR]
        rw [if_pos hcond]
        refine Finset.sum_congr rfl ?_
        intro j hj
        by_cases hs : shiftS m i j ≤ t
        · by_cases hr : t - shiftS m i j ≤ i * cellSpan m
          · rw [if_pos ⟨hs, hr⟩, if_pos hs, ih (by omega) _ hr, mul_comm]
          · rw [if_neg (by tauto), if_pos hs,
              hsupp i (by omega) _ (by omega), mul_zero]
        · rw [if_neg (by tauto), if_neg hs]
    refine hconv m.size (le_refl _) t ?_
    unfold pdfSize at ht
    omega
  have htot : pdfTotal m bkg = 1 := by
      have hprodsum : ∀ i, (∑ v : Fin i → Fin 4, ∏ p : Fin i, bkg (v p : ℕ)) =
          (∑ j in Finset.range 4, bkg j) ^ i := by
        intro i
        induction i with
        | zero => simp
        | succ i ih =>
          rw [sum_snoc_split i (fun v => ∏ p : Fin (i + 1), bkg (v p : ℕ))]
          have hstep : ∀ j : Fin 4,
              (∑ g : Fin i → Fin 4, ∏ p : Fin (i + 1),
                  bkg ((Fin.snoc g j : Fin (i + 1) → Fin 4) p : ℕ)) =
                (∑ j' in Finset.range 4, bkg j') ^ i * bkg (j : ℕ) := by
            intro j
            rw [← ih, Finset.sum_mul]
            refine Finset.sum_congr rfl ?_
            intro g _
            rw [Fin.prod_univ_castSucc]
            congr 1
            · refine Finset.prod_congr rfl ?_
              intro p _
              rw [Fin.snoc_castSucc]
            · rw [Fin.snoc_last]
          calc (∑ j : Fin 4, ∑ g : Fin i → Fin 4, ∏ p : Fin (i + 1),
                  bkg ((Fin.snoc g j : Fin (i + 1) → Fin 4) p : ℕ))
              = ∑ j : Fin 4, (∑ j' in Finset.range 4, bkg j') ^ i * bkg (j : ℕ) :=
                Finset.sum_congr rfl (fun j _ => hstep j)
            _ = (∑ j' in Finset.range 4, bkg j') ^ i * ∑ j : Fin 4, bkg (j : ℕ) := by
                rw [Finset.mul_sum]
            _ = (∑ j in Finset.range 4, bkg j) ^ (i + 1) := by
                rw [Fin.sum_univ_eq_sum_range (fun j => bkg j) 4]
                ring
      have hsum1 : ∀ {i : ℕ}, i ≤ m.size →
          (∑ t in Finset.range (i * cellSpan m + 1), pdfR m bkg i t) = 1 := by
        intro i hi
        have h1 : (∑ t in Finset.range (i * cellSpan m + 1), pdfR m bkg i t) =
            ∑ t in Finset.range (i * cellSpan m + 1), windowDist m bkg i t :=
          Finset.sum_congr rfl (fun t _ => hwd i t)
        rw [h1]
        unfold windowDist
        rw [Finset.sum_comm]
        have h2 : ∀ v : Fin i → Fin 4,
            (∑ t in Finset.range (i * cellSpan m + 1),
              (∏ p : Fin i, bkg (v p : ℕ)) *
                (if (∑ p : Fin i, shiftS m (p : ℕ) (v p : ℕ)) = t then 1 else 0)) =
              ∏ p : Fin i, bkg (v p : ℕ) := by
          intro v
          have h3 : ∀ t, (∏ p : Fin i, bkg (v p : ℕ)) *
              (if (∑ p : Fin i, shiftS m (p : ℕ) (v p : ℕ)) = t then 1 else 0) =
              if (∑ p : Fin i, shiftS m (p : ℕ) (v p : ℕ)) = t then
                (∏ p : Fin i, bkg (v p : ℕ)) else 0 := by
            intro t
            by_cases he : (∑ p : Fin i, shiftS m (p : ℕ) (v p : ℕ)) = t
            · rw [if_pos he, if_pos he, mul_one]
            · rw [if_neg he, if_neg he, mul_zero]
          rw [Finset.sum_congr rfl (fun t _ => h3 t), Finset.sum_ite_eq]
          rw [if_pos (Finset.mem_range.mpr (by
            have := shift_total_le m i hi v
            omega))]
        rw [Finset.sum_congr rfl (fun v _ => h2 v), hprodsum, hb1, one_pow]
      unfold pdfTotal
      have h1 : ∀ t ∈ Finset.range (pdfSize m), rawPdf m bkg t = pdfR m bkg m.size t := by
        intro t ht
        exact hraw (Finset.mem_range.mp ht)
      rw [Finset.sum_congr rfl h1]
      exact hsum1 (le_refl m.size)
  refine ⟨hwd, hraw, htot, ?_⟩
  unfold normPdf
  rw [htot]
  norm_num

/-- C2: for a motif prepared by `fill_cdf` under a normalized background,
every entry of the CDF array is the exact discrete right-tail probability
of the shifted window score — `cdf[t] = P(Σ (scores[i][X_i] − s_min) ≥ t)`
for bases `X_i` drawn independently from the background — and
consequently `score2pval` returns `cdf[score − W·s_min]`, the exact
right-tail p-value of a raw motif score.  (With the background summing
exactly to 1 the PDF total is exactly 1, so the defensive renormalization
of `fill_cdf` is a no-op.) -/
theorem c2_fill_cdf_exact_tail (m : Motif) (bkg : ℕ → ℚ)
    (hb1 : (∑ j in Finset.range 4, bkg j) = 1) :
    (∀ t, t < pdfSize m → fillCdf m bkg t = tailProb m bkg t) ∧
    (∀ sc : ℤ, (sc - pwmMin m * m.size).toNat < pdfSize m →
      score2pval m (fillCdf m bkg) sc =
        tailProb m bkg (sc - pwmMin m * m.size).toNat) := by
  have hnf := normPdf_facts m bkg hb1
  have htail : ∀ t, tailProb m bkg t =
      ∑ u in Finset.Ico t (pdfSize m), windowDist m bkg m.size u := by
    intro t
    unfold tailProb windowDist
    rw [Finset.sum_comm]
    refine Finset.sum_congr rfl ?_
    intro v _
    have hS := shift_total_le m m.size (le_refl _) v
    have h3 : ∀ u, (∏ p : Fin m.size, bkg (v p : ℕ)) *
        (if (∑ p : Fin m.size, shiftS m (p : ℕ) (v p : ℕ)) = u then 1 else 0) =
        if (∑ p : Fin m.size, shiftS m (p : ℕ) (v p : ℕ)) = u then
          (∏ p : Fin m.size, bkg (v p : ℕ)) else 0 := by
      intro u
      by_cases he : (∑ p : Fin m.size, shiftS m (p : ℕ) (v p : ℕ)) = u
      · rw [if_pos he, if_pos he, mul_one]
      · rw [if_neg he, if_neg he, mul_zero]
    rw [Finset.sum_congr rfl (fun u _ => h3 u), Finset.sum_ite_eq]
    have hmem : (∑ p : Fin m.size, shiftS m (p : ℕ) (v p : ℕ)) ∈
        Finset.Ico t (pdfSize m) ↔
        t ≤ ∑ p : Fin m.size, shiftS m (p : ℕ) (v p : ℕ) := by
      rw [Finset.mem_Ico]
      unfold pdfSize
      constructor
      · intro h; exact h.1
      · intro h; exact ⟨h, by omega⟩
    by_cases hc : t ≤ ∑ p : Fin m.size, shiftS m (p : ℕ) (v p : ℕ)
    · rw [if_pos (hmem.mpr hc), if_pos hc, mul_one]
    · rw [if_neg (fun hin => hc (hmem.mp hin)), if_neg hc, mul_zero]
  have hmain : ∀ t, t < pdfSize m → fillCdf m bkg t = tailProb m bkg t := by
    intro t ht
    rw [fillCdf_eq_sum m bkg ht, htail t]
    refine Finset.sum_congr rfl ?_
    intro u hu
    have hu' := (Finset.mem_Ico.mp hu).2
    rw [hnf.2.2.2, hnf.2.1 hu', hnf.1]
  exact ⟨hmain, fun sc hsc => hmain _ hsc⟩

/-- C8: shape of every computed CDF — `cdf[0]` is within 10⁻⁴ of 1 (here
exactly 1), the CDF is non-increasing in its index, and `cdf[R−1]` is the
last PDF entry before the suffix-summing pass. -/
theorem c8_cdf_shape (m : Motif) (bkg : ℕ → ℚ)
    (hb0 : ∀ j, j < 4 → 0 ≤ bkg j)
    (hb1 : (∑ j in Finset.range 4, bkg j) = 1) :
    |fillCdf m bkg 0 - 1| ≤ 1/10000 ∧
    (∀ t, t + 1 < pdfSize m → fillCdf m bkg (t + 1) ≤ fillCdf m bkg t) ∧
    fillCdf m bkg (pdfSize m - 1) = normPdf m bkg (pdfSize m - 1) := by
  have hR : 1 ≤ pdfSize m := by unfold pdfSize; omega
  have hnf := normPdf_facts m bkg hb1
  have hpnn : ∀ i t, 0 ≤ pdfR m bkg i t := by
    intro i
    induction i with
    | zero =>
      intro t
      simp only [pdfR]
      split_ifs <;> norm_num
    | succ i ih =>
      intro t
      simp only [pdfR]
      refine Finset.sum_nonneg ?_
      intro j hj
      by_cases hs : shiftS m i j ≤ t
      · rw [if_pos hs]
        exact mul_nonneg (hb0 j (Finset.mem_range.mp hj)) (ih _)
      · rw [if_neg hs]
  have hnn : ∀ u, u < pdfSize m → 0 ≤ normPdf m bkg u := by
    intro u hu
    rw [hnf.2.2.2, hnf.2.1 hu]
    exact hpnn _ _
  refine ⟨?_, ?_, ?_⟩
  · have h0 : fillCdf m bkg 0 = 1 := by
      rw [fillCdf_eq_sum m bkg (by omega)]
      have hIco : Finset.Ico 0 (pdfSize m) = Finset.range (pdfSize m) := by
        rw [Finset.range_eq_Ico]
      rw [hIco, hnf.2.2.2]
      exact hnf.2.2.1
    rw [h0]
    norm_num
  · intro t ht
    rw [fillCdf_eq_sum m bkg (by omega), fillCdf_eq_sum m bkg (by omega)]
    refine Finset.sum_le_sum_of_subset_of_nonneg ?_ ?_
    · exact Finset.Ico_subset_Ico (by omega) (le_refl _)
    · intro u hu _
      exact hnn u (Finset.mem_Ico.mp hu).2
  · unfold fillCdf
    rw [suffix_fold_eval]
    rw [if_neg (by omega)]

theorem firstLtAux_none_iff (cdf : ℕ → ℚ) (pv : ℚ) :
    ∀ n start, firstLtAux cdf pv start n = none ↔
      ∀ i, start ≤ i → i < start + n → ¬ cdf i < pv := by
  intro n
  induction n with
  | zero =>
    intro start
    simp only [firstLtAux]
    constructor
    · intro _ i h1 h2
      omega
    · intro _
      trivial
  | succ n ih =>
    intro start
    simp only [firstLtAux]
    by_cases hs : cdf start < pv
    · rw [if_pos hs]
      constructor
      · intro h; cases h
      · intro h
        exact absurd hs (h start (le_refl _) (by omega))
    · rw [if_neg hs, ih]
      constructor
      · intro h i h1 h2
        rcases Nat.eq_or_lt_of_le h1 with he | hlt
        · exact he ▸ hs
        · exact h i hlt (by omega)
      · intro h i h1 h2
        exact h i (by omega) (by omega)

theorem firstLtAux_some_spec (cdf : ℕ → ℚ) (pv : ℚ) :
    ∀ n start r, firstLtAux cdf pv start n = some r →
      start ≤ r ∧ r < start + n ∧ cdf r < pv ∧
        ∀ i, start ≤ i → i < r → ¬ cdf i < pv := by
  intro n
  induction n with
  | zero =>
    intro start r h
    cases h
  | succ n ih =>
    intro start r h
    simp only [firstLtAux] at h
    by_cases hs : cdf start < pv
    · rw [if_pos hs] at h
      cases h
      exact ⟨le_refl _, by omega, hs, fun i h1 h2 => by omega⟩
    · rw [if_neg hs] at h
      obtain ⟨h1, h2, h3, h4⟩ := ih (start + 1) r h
      refine ⟨by omega, by omega, h3, ?_⟩
      intro i hi1 hi2
      rcases Nat.eq_or_lt_of_le hi1 with he | hlt
      · exact he ▸ hs
      · exact h4 i (by omega) hi2

theorem thresholdIdx_spec (cdf : ℕ → ℚ) (R : ℕ) (pv : ℚ) :
    (thresholdIdx cdf R pv = R ∧ ∀ i, i < R → pv ≤ cdf i) ∨
    (thresholdIdx cdf R pv < R ∧ cdf (thresholdIdx cdf R pv) < pv ∧
      ∀ i, i < thresholdIdx cdf R pv → pv ≤ cdf i) := by
  unfold thresholdIdx
  rcases hf : firstLtAux cdf pv 0 R with _ | r
  · left
    refine ⟨rfl, ?_⟩
    intro i hi
    have h := (firstLtAux_none_iff cdf pv R 0).mp hf i (by omega) (by omega)
    exact not_lt.mp h
  · right
    obtain ⟨h1, h2, h3, h4⟩ := firstLtAux_some_spec cdf pv R 0 r hf
    simp only [Option.getD_some]
    exact ⟨by omega, h3, fun i hi => not_lt.mp (h4 i (by omega) hi)⟩

/-- C3: `set_threshold` assigns `T = t* + W·s_min`, where `t*` is the
smallest CDF index with `cdf[t*] < α` (and `t* = R` when no index
qualifies); when `p_value(S_max)/α > 1.0001` the threshold is instead the
`INT_MAX` sentinel, and `score_seq` then returns without emitting any hit
for any sequence. -/
theorem c3_threshold (m : Motif) (cdf : ℕ → ℚ) (pv : ℚ) :
    ((thresholdIdx cdf (pdfSize m) pv = pdfSize m ∧
        ∀ i, i < pdfSize m → pv ≤ cdf i) ∨
     (thresholdIdx cdf (pdfSize m) pv < pdfSize m ∧
        cdf (thresholdIdx cdf (pdfSize m) pv) < pv ∧
        ∀ i, i < thresholdIdx cdf (pdfSize m) pv → pv ≤ cdf i)) ∧
    (¬ score2pval m cdf (motifMaxScore m) / pv > 10001/10000 →
      setThreshold m cdf pv =
        (thresholdIdx cdf (pdfSize m) pv : ℤ) + pwmMin m * m.size) ∧
    (score2pval m cdf (motifMaxScore m) / pv > 10001/10000 →
      setThreshold m cdf pv = INTMAX ∧
        ∀ s : List ℕ, ∀ rc : Bool,
          scanMotifSeq m cdf (setThreshold m cdf pv) rc s = []) := by
  refine ⟨thresholdIdx_spec cdf (pdfSize m) pv, ?_, ?_⟩
  · intro hcond
    unfold setThreshold
    rw [if_neg hcond]
    ring
  · intro hcond
    have hT : setThreshold m cdf pv = INTMAX := by
      unfold setThreshold
      rw [if_pos hcond]
    refine ⟨hT, ?_⟩
    intro s rc
    rw [hT]
    unfold scanMotifSeq
    rw [if_pos (Or.inr rfl)]

theorem mem_windowHits {m : Motif} {cdf : ℕ → ℚ} {T : ℤ} {s : List ℕ}
    {isRC : Bool} {h : Hit} (hmem : h ∈ windowHits m cdf T s isRC) :
    ∃ w, w < s.length - m.size + 1 ∧
      T ≤ (if isRC then scoreSubseqRC m s w else scoreSubseq m s w) ∧
      h = ⟨w + 1, w + m.size, isRC,
            score2pval m cdf
              (if isRC then scoreSubseqRC m s w else scoreSubseq m s w),
            (if isRC then scoreSubseqRC m s w else scoreSubseq m s w),
            (s.drop w).take m.size⟩ := by
  unfold windowHits at hmem
  rw [List.mem_filterMap] at hmem
  obtain ⟨w, hw, heq⟩ := hmem
  rw [List.mem_range] at hw
  by_cases hsc : T ≤ (if isRC then scoreSubseqRC m s w else scoreSubseq m s w)
  · rw [if_pos hsc] at heq
    exact ⟨w, hw, hsc, (Option.some.inj heq).symm⟩
  · rw [if_neg hsc] at heq
    cases heq

theorem ambiguous_sum_lt {W : ℕ} (hW : W ≤ 50) (f : ℕ → ℤ)
    (hb : ∀ p, p < W → f p ≤ 100000)
    {p0 : ℕ} (hp0 : p0 < W) (hf0 : f p0 = AMB) :
    (∑ p in Finset.range W, f p) < -5000000 := by
  have hmem : p0 ∈ Finset.range W := Finset.mem_range.mpr hp0
  rw [Finset.sum_eq_sum_diff_singleton_add hmem]
  have hcard : (Finset.range W \ {p0}).card = W - 1 := by
    rw [Finset.card_sdiff (Finset.singleton_subset_iff.mpr hmem)]
    simp
  have hsum : (∑ p in Finset.range W \ {p0}, f p) ≤ (W - 1 : ℕ) • (100000 : ℤ) := by
    rw [← hcard]
    refine Finset.sum_le_card_nsmul _ _ _ ?_
    intro x hx
    exact hb x (Finset.mem_range.mp (Finset.mem_sdiff.mp hx).1)
  rw [hf0, show AMB = (-10000000 : ℤ) from rfl]
  rw [nsmul_eq_mul] at hsum
  have hW1 : ((W - 1 : ℕ) : ℤ) ≤ 49 := by omega
  linarith [hsum, hW1]

/-- C4: a window containing at least one ambiguous byte picks up at least
one AMBIGUITY_SCORE contribution, scores strictly below any reachable
threshold (on both strands), and is never emitted as a hit by the
scanner.  The cell-score bound |score| ≤ 100000 holds for every motif the
program can build (|1000·log₂(x/bkg)| < 33000 for any probability x and
validated background). -/
theorem c4_ambiguous_window_no_hit (m : Motif) (bkg : ℕ → ℚ) (pv : ℚ)
    (s : List ℕ) (i : ℕ)
    (hW : m.size ≤ 50)
    (hamb4 : ∀ pos, m.pwm pos 4 = AMB)
    (hbound : ∀ pos j, pos < m.size → j < 4 →
      -100000 ≤ m.pwm pos j ∧ m.pwm pos j ≤ 100000)
    (hT : setThreshold m (fillCdf m bkg) pv ≠ INTMAX)
    (hin : i + m.size ≤ s.length)
    (hamb : ∃ p, p < m.size ∧ char2index (s.getD (i + p) 0) = 4) :
    (∃ p, p < m.size ∧ m.pwm p (char2index (s.getD (i + p) 0)) = AMB) ∧
    scoreSubseq m s i < setThreshold m (fillCdf m bkg) pv ∧
    scoreSubseqRC m s i < setThreshold m (fillCdf m bkg) pv ∧
    ∀ h ∈ scanMotifSeq m (fillCdf m bkg)
        (setThreshold m (fillCdf m bkg) pv) true s,
      h.start ≠ i + 1 := by
  obtain ⟨p0, hp0, hidx0⟩ := hamb
  have hminlb : (-100000 : ℤ) ≤ pwmMin m :=
    pwmMin_ge (by norm_num) (fun pos j h1 h2 => (hbound pos j h1 h2).1)
  have hTform : (pwmMin m * m.size : ℤ) ≤ setThreshold m (fillCdf m bkg) pv := by
    unfold setThreshold at hT ⊢
    by_cases hcond : score2pval m (fillCdf m bkg) (motifMaxScore m) / pv > 10001/10000
    · exact absurd (if_pos hcond) hT
    · rw [if_neg hcond]
      have hti : (0 : ℤ) ≤ (thresholdIdx (fillCdf m bkg) (pdfSize m) pv : ℤ) := by
        positivity
      linarith
  have hTlb : (-5000000 : ℤ) ≤ setThreshold m (fillCdf m bkg) pv := by
    have hsz : (m.size : ℤ) ≤ 50 := by exact_mod_cast hW
    have hsz0 : (0 : ℤ) ≤ (m.size : ℤ) := by positivity
    have h1 : (-100000 : ℤ) * (m.size : ℤ) ≤ pwmMin m * m.size :=
      mul_le_mul_of_nonneg_right hminlb hsz0
    have h2 : (-100000 : ℤ) * 50 ≤ (-100000 : ℤ) * (m.size : ℤ) :=
      mul_le_mul_of_nonpos_left hsz (by norm_num)
    linarith [hTform, h1, h2]
  have hfwd : scoreSubseq m s i < -5000000 := by
    unfold scoreSubseq
    refine ambiguous_sum_lt hW _ ?_ hp0 ?_
    · intro p hp
      by_cases h4 : char2index (s.getD (i + p) 0) = 4
      · rw [h4, hamb4 p]
        decide
      · have hlt := char2index_lt_five (s.getD (i + p) 0)
        exact (hbound p _ hp (by omega)).2
    · rw [hidx0, hamb4 p0]
  have hrc : scoreSubseqRC m s i < -5000000 := by
    unfold scoreSubseqRC
    refine ambiguous_sum_lt hW _ ?_ hp0 ?_
    · intro p hp
      unfold fillPwmRC
      by_cases h4 : char2index (s.getD (i + p) 0) = 4
      · rw [h4, if_neg (by omega), if_pos rfl]
        decide
      · have hlt := char2index_lt_five (s.getD (i + p) 0)
        rw [if_pos ⟨hp, by omega⟩]
        exact (hbound (m.size - 1 - p) _ (by omega) (by omega)).2
    · unfold fillPwmRC
      rw [hidx0, if_neg (by omega), if_pos rfl]
  refine ⟨⟨p0, hp0, by rw [hidx0, hamb4 p0]⟩, by omega, by omega, ?_⟩
  intro h hmem
  unfold scanMotifSeq at hmem
  by_cases hskip : s.length < m.size ∨ setThreshold m (fillCdf m bkg) pv = INTMAX
  · rw [if_pos hskip] at hmem
    cases hmem
  · rw [if_neg hskip] at hmem
    rcases List.mem_append.mp hmem with hf | hrcmem
    · obtain ⟨w, hw, hwT, hwh⟩ := mem_windowHits hf
      intro hstart
      rw [hwh] at hstart
      simp only at hstart
      have hwi : w = i := by omega
      subst hwi
      simp only [if_neg (by simp : ¬(false = true))] at hwT
      omega
    · have hrcmem' : h ∈ windowHits m (fillCdf m bkg)
          (setThreshold m (fillCdf m bkg) pv) s true := by
        by_cases hb : (true : Bool)
        · simpa using hrcmem
        · simp at hb
      obtain ⟨w, hw, hwT, hwh⟩ := mem_windowHits hrcmem'
      intro hstart
      rw [hwh] at hstart
      simp only at hstart
      have hwi : w = i := by omega
      subst hwi
      simp only [if_pos rfl] at hwT
      omega

/-- The complement of a byte at the alphabet level: A↔T, C↔G (upper-case
representatives), everything ambiguous becomes N. -/
def compByte (b : ℕ) : ℕ :=
  if char2index b = 0 then 84
  else if char2index b = 1 then 71
  else if char2index b = 2 then 67
  else if char2index b = 3 then 65
  else 78

/-- The reverse complement of a byte sequence. -/
def revComp (s : List ℕ) : List ℕ := (s.map compByte).reverse

theorem char2index_compByte (b : ℕ) :
    char2index (compByte b) =
      (if char2index b = 4 then 4 else 3 - char2index b) := by
  rcases char2index_cases b with h | h | h | h | h <;>
    simp [compByte, h] <;> decide

theorem revComp_length (s : List ℕ) : (revComp s).length = s.length := by
  unfold revComp
  rw [List.length_reverse, List.length_map]

theorem getD_revComp (s : List ℕ) {j : ℕ} (hj : j < s.length) :
    (revComp s).getD j 0 = compByte (s.getD (s.length - 1 - j) 0) := by
  unfold revComp
  rw [List.getD_eq_getElem?_getD, List.getD_eq_getElem?_getD]
  rw [List.getElem?_reverse (by rw [List.length_map]; exact hj)]
  rw [List.length_map, List.getElem?_map]
  rcases hu : s[s.length - 1 - j]? with _ | x
  · exfalso
    have hlen := List.getElem?_eq_none_iff.mp hu
    omega
  · simp [hu]

/-- C5: the reverse-complement table satisfies
`scores_rc[W−1−p][k] = scores[p][3−k]` with slot 4 still the ambiguity
sentinel, and consequently the reverse-strand window score at offset `i`
equals the forward score of the motif on the reverse complement of the
sequence at the mirrored offset `|s| − W − i`. -/
theorem c5_rc_symmetry (m : Motif) (hamb4 : ∀ pos, m.pwm pos 4 = AMB) :
    (∀ p, p < m.size →
      fillPwmRC m (m.size - 1 - p) 0 = m.pwm p 3 ∧
      fillPwmRC m (m.size - 1 - p) 1 = m.pwm p 2 ∧
      fillPwmRC m (m.size - 1 - p) 2 = m.pwm p 1 ∧
      fillPwmRC m (m.size - 1 - p) 3 = m.pwm p 0 ∧
      fillPwmRC m p 4 = AMB) ∧
    (∀ s : List ℕ, ∀ i, i + m.size ≤ s.length →
      scoreSubseqRC m s i = scoreSubseq m (revComp s) (s.length - m.size - i)) := by
  constructor
  · intro p hp
    have hlt : m.size - 1 - p < m.size := by omega
    have hback : m.size - 1 - (m.size - 1 - p) = p := by omega
    have hcell : ∀ j, j < 4 → fillPwmRC m (m.size - 1 - p) j = m.pwm p (3 - j) := by
      intro j hj
      unfold fillPwmRC
      rw [if_pos ⟨hlt, hj⟩, hback]
    have hamb : fillPwmRC m p 4 = AMB := by
      unfold fillPwmRC
      rw [if_neg (by omega), if_pos rfl]
    exact ⟨hcell 0 (by norm_num), hcell 1 (by norm_num), hcell 2 (by norm_num),
      hcell 3 (by norm_num), hamb⟩
  · intro s i hin
    unfold scoreSubseq scoreSubseqRC
    rw [← Finset.sum_range_reflect
      (fun p => m.pwm p
        (char2index ((revComp s).getD (s.length - m.size - i + p) 0))) m.size]
    refine Finset.sum_congr rfl ?_
    intro p hp
    have hp' := Finset.mem_range.mp hp
    have hrange : s.length - m.size - i + (m.size - 1 - p) < s.length := by omega
    rw [getD_revComp s hrange]
    have harith : s.length - 1 - (s.length - m.size - i + (m.size - 1 - p)) =
        i + p := by omega
    rw [harith, char2index_compByte]
    by_cases h4 : char2index (s.getD (i + p) 0) = 4
    · rw [if_pos h4, h4]
      unfold fillPwmRC
      rw [if_neg (by omega), if_pos rfl, hamb4]
    · rw [if_neg h4]
      have hlt := char2index_lt_five (s.getD (i + p) 0)
      unfold fillPwmRC
      rw [if_pos ⟨hp', by omega⟩]

/-- C1 (amended): a PWM cell built from a probability vector — a MEME or
HOMER PPM column, a JASPAR count divided by the column-0 sum, or an IUPAC
consensus entry — stores the integer obtained by TRUNCATING TOWARD ZERO
(the C cast, not rounding) 1000·log₂(p′/b), with
p′ = (p·n + c/4)/(n + c); and slot 4 of every position of both the
forward and the reverse-complement table holds the −10,000,000
sentinel. -/
theorem c1_pwm_construction (nsites pseudocount : ℤ) (bkg : ℕ → ℚ)
    (cols : List (ℕ → ℚ)) (mc : Motif) (cons : List ℕ) (mcons : Motif)
    (pos k : ℕ) :
    (pos < cols.length → k < 4 →
      (buildPPM nsites pseudocount bkg cols).pwm pos k =
        truncToZero (Real.logb 2
          (((cols.getD pos (fun _ => 0) k * nsites + (pseudocount : ℚ) / 4) /
            ((nsites : ℚ) + pseudocount)) / bkg k : ℚ) * 1000)) ∧
    ((buildPPM nsites pseudocount bkg cols).pwm pos 4 = AMB ∧
      fillPwmRC (buildPPM nsites pseudocount bkg cols) pos 4 = AMB) ∧
    (pos < mc.size → k < 4 →
      (pcmToPwm nsites pseudocount bkg mc).pwm pos k =
        truncToZero (Real.logb 2
          ((((mc.pwm pos k : ℚ) / (jasparColSum mc : ℚ) * nsites +
              (pseudocount : ℚ) / 4) /
            ((nsites : ℚ) + pseudocount)) / bkg k : ℚ) * 1000)) ∧
    (addConsensusMotif cons = Except.ok mcons → pos < cons.length → k < 4 →
      mcons.pwm pos k =
        truncToZero (Real.logb 2
          (((consensus2probs ((consensus2index (cons.getD pos 0)).getD 0) k * 1000 +
              (1 : ℚ) / 4) / (1000 + 1)) / (1/4) : ℚ) * 1000) ∧
      mcons.pwm pos 4 = AMB) := by
  refine ⟨?_, ⟨?_, ?_⟩, ?_, ?_⟩
  · intro hpos hk
    rw [buildPPM_pwm, if_pos ⟨hpos, hk⟩]
    rfl
  · rw [buildPPM_pwm, if_neg (by omega), if_pos rfl]
  · unfold fillPwmRC
    rw [if_neg (by omega), if_pos rfl]
  · intro hpos hk
    unfold pcmToPwm
    simp only
    rw [if_pos ⟨hpos, hk⟩]
    rfl
  · intro hok hpos hk
    unfold addConsensusMotif at hok
    by_cases hall : (List.all cons fun b => (consensus2index b).isSome) = true
    · rw [if_pos hall] at hok
      have hm := Except.ok.inj hok
      subst hm
      constructor
      · simp only
        rw [if_pos ⟨hpos, hk⟩]
        rfl
      · simp only
        rw [if_neg (by omega)]
        simp
    · rw [if_neg hall] at hok
      cases hok

/-- The probability column (0.1, 0.4, 0.4, 0.1) used as the C1
counterexample input. -/
def cexCol : ℕ → ℚ := fun k => if k = 0 ∨ k = 3 then 1/10 else 2/5

/-- C1 counterexample: for the PWM column built from the probability
vector (0.1, 0.4, 0.4, 0.1) with default -n 1000, pseudocount 1 and a
uniform background, the stored A-score is NOT round(1000·log₂(p′/b)): the
code truncates 1000·log₂(401/1001) ≈ −1319.77 toward zero, storing −1319,
while rounding would give −1320. -/
theorem c1_counterexample :
    (buildPPM 1000 1 uniformBkg [cexCol]).pwm 0 0 ≠
      round (Real.logb 2
        (((cexCol 0 * 1000 + (1 : ℚ) / 4) / (1000 + 1)) / (1/4) : ℚ) * 1000) := by
  have hL : (buildPPM 1000 1 uniformBkg [cexCol]).pwm 0 0 = -1319 := by
    rw [buildPPM_pwm, if_pos ⟨by norm_num, by norm_num⟩, List.getD_cons_zero]
    have hc : cexCol 0 = 1/10 := by norm_num [cexCol]
    have hu : uniformBkg 0 = 1/4 := rfl
    rw [hc, hu]
    exact calc_score_vals.2.2.1
  have harg : (((cexCol 0 * 1000 + (1 : ℚ) / 4) / (1000 + 1)) / (1/4) : ℚ) =
      401/1001 := by
    norm_num [cexCol]
  rw [hL, harg]
  have hR : round (Real.logb 2 ((401/1001 : ℚ) : ℝ) * 1000) = -1320 := by
    have hcast : ((401/1001 : ℚ) : ℝ) = (401 : ℝ)/1001 := by push_cast; ring
    rw [hcast]
    exact calc_score_vals.2.2.2
  rw [hR]
  decide

/-- The PWM the program builds for the consensus `ACGT`: 1998 for the
consensus base of each position, −9967 for the other three, sentinel in
slot 4. -/
def mACGT : Motif :=
  { size := 4,
    pwm := fun pos k =>
      if pos < 4 ∧ k < 4 then (if k = pos then 1998 else -9967)
      else if k = 4 then AMB else 0 }

/-- The coordinate/strand/match view of a hit (the fields C9 pins down). -/
def hitView (h : Hit) : ℕ × ℕ × Bool × List ℕ := (h.start, h.stop, h.rc, h.matched)

/-- C9: scanning `>s1 TTACGTAA` with the consensus motif `-1 ACGT` under
the defaults emits exactly two hits — a forward hit with start=3, end=6,
match `ACGT`, followed by a reverse-strand hit at the same coordinates
(ACGT is its own reverse complement) — in that order. -/
theorem c9_consensus_scan :
    (runConsensusScan [65, 67, 71, 84] [84, 84, 65, 67, 71, 84, 65, 65]).map
        (fun hits => hits.map hitView) =
      Except.ok [(3, 6, false, [65, 67, 71, 84]),
                 (3, 6, true, [65, 67, 71, 84])] := by
  have hACGT : addConsensusMotif [65, 67, 71, 84] = Except.ok mACGT := by
    unfold addConsensusMotif
    rw [if_pos (by decide)]
    congr 1
    unfold mACGT
    congr 1
    funext pos k
    by_cases hc : pos < 4 ∧ k < 4
    · have hlen : ([65, 67, 71, 84] : List ℕ).length = 4 := rfl
      rw [hlen, if_pos hc, if_pos hc]
      obtain ⟨hpos, hk⟩ := hc
      interval_cases pos <;> interval_cases k <;>
        simp only [List.getD_cons_zero, List.getD_cons_succ] <;>
        norm_num <;>
        first
          | exact calc_score_vals.1
          | exact calc_score_vals.2.1
    · have hlen : ([65, 67, 71, 84] : List ℕ).length = 4 := rfl
      rw [hlen, if_neg hc, if_neg hc]
  unfold runConsensusScan
  rw [hACGT]
  simp only [Except.map]
  congr 1

/-- C7 (code bug witness): `add_consensus_motif` does NOT abort on a
51-wide consensus — the oversize branch prints its error message but
never calls `badexit`, so the motif is built (with `size = 51`) and
scanning proceeds.  The MEME reader does abort on width > 50; the HOMER
reader likewise only prints. -/
theorem c7_oversize_consensus_not_fatal :
    (addConsensusMotif (List.replicate 51 65)).map Motif.size = Except.ok 51 := by
  unfold addConsensusMotif
  rw [if_pos (by decide)]
  rfl

/-- `VEC_MIN` over the four background slots. -/
def bkgMin (b : ℕ → ℚ) : ℚ := min (min (min (b 0) (b 1)) (b 2)) (b 3)

/-- The `VEC_ADD(bkg, MIN_BKG_VALUE, 4)` adjustment, applied only when the
minimum is below MIN_BKG_VALUE = 0.001. -/
def bkgAdjusted (b : ℕ → ℚ) : ℕ → ℚ := fun i =>
  if bkgMin b < 1/1000 then b i + 1/1000 else b i

/-- The sum the values are divided by (`VEC_DIV(bkg, sum, 4)`). -/
def bkgAdjSum (b : ℕ → ℚ) : ℚ :=
  bkgAdjusted b 0 + bkgAdjusted b 1 + bkgAdjusted b 2 + bkgAdjusted b 3

/-- `check_and_load_bkg`: reject when any of the four parsed slots still
holds the −1 "missing" sentinel; otherwise add MIN_BKG to all entries when
the minimum is below MIN_BKG, and divide all four entries by their sum. -/
def checkAndLoadBkg (b : ℕ → ℚ) : Option (ℕ → ℚ) :=
  if b 0 = -1 ∨ b 1 = -1 ∨ b 2 = -1 ∨ b 3 = -1 then none
  else some (fun i => if i < 4 then bkgAdjusted b i / bkgAdjSum b else b i)

/-- The background (0.001, 9, 9, 9) used as the C6 counterexample input. -/
def cexBkg : ℕ → ℚ := fun i => if i = 0 then 1/1000 else 9

/-- C6 counterexample: on the supplied values (0.001, 9, 9, 9) validation
succeeds, but the first normalized value is 1/27001 < MIN_BKG — the claim
"after it succeeds every value is at least MIN_BKG" is false on the code
(the minimum is only enforced before the division by the sum). -/
theorem c6_counterexample :
    (checkAndLoadBkg cexBkg).isSome = true ∧
    ((checkAndLoadBkg cexBkg).map (fun g => g 0)).getD 1 < 1/1000 := by
  have hsome : checkAndLoadBkg cexBkg =
      some (fun i => if i < 4 then bkgAdjusted cexBkg i / bkgAdjSum cexBkg
        else cexBkg i) := by
    unfold checkAndLoadBkg
    rw [if_neg (by norm_num [cexBkg])]
  have hval : bkgAdjusted cexBkg 0 / bkgAdjSum cexBkg = 1/27001 := by
    have hmin : bkgMin cexBkg = 1/1000 := by
      unfold bkgMin cexBkg
      norm_num
    unfold bkgAdjusted bkgAdjSum bkgAdjusted
    rw [hmin]
    norm_num [cexBkg]
  constructor
  · rw [hsome]
    rfl
  · rw [hsome]
    simp only [Option.map_some', Option.getD_some]
    rw [if_pos (by omega), hval]
    norm_num

/-- C6 (amended): `check_and_load_bkg` rejects when fewer than four values
were supplied (a slot still holds −1), adds MIN_BKG to every entry when
any entry is below MIN_BKG, and divides all four entries by their sum;
after it succeeds on nonnegative inputs the four values sum exactly to 1
(hence within 10⁻⁹), and every value is at least MIN_BKG provided the
adjusted sum is at most 1 — but not in general. -/
theorem c6_background_validation (b : ℕ → ℚ) (hnn : ∀ i, i < 4 → 0 ≤ b i) :
    (∀ b' : ℕ → ℚ, (b' 0 = -1 ∨ b' 1 = -1 ∨ b' 2 = -1 ∨ b' 3 = -1) →
      checkAndLoadBkg b' = none) ∧
    (bkgMin b < 1/1000 → ∀ i, bkgAdjusted b i = b i + 1/1000) ∧
    ∃ g, checkAndLoadBkg b = some g ∧
      (∀ i, i < 4 → g i = bkgAdjusted b i / bkgAdjSum b) ∧
      g 0 + g 1 + g 2 + g 3 = 1 ∧
      (bkgAdjSum b ≤ 1 → ∀ i, i < 4 → 1/1000 ≤ g i) := by
  have hmin_le : ∀ i, i < 4 → bkgMin b ≤ b i := by
    intro i hi
    unfold bkgMin
    interval_cases i
    · exact le_trans (le_trans (min_le_left _ _) (min_le_left _ _)) (min_le_left _ _)
    · exact le_trans (le_trans (min_le_left _ _) (min_le_left _ _)) (min_le_right _ _)
    · exact le_trans (min_le_left _ _) (min_le_right _ _)
    · exact min_le_right _ _
  have hadj_lb : ∀ i, i < 4 → 1/1000 ≤ bkgAdjusted b i := by
    intro i hi
    unfold bkgAdjusted
    by_cases hmin : bkgMin b < 1/1000
    · rw [if_pos hmin]
      have := hnn i hi
      linarith
    · rw [if_neg hmin]
      push_neg at hmin
      exact le_trans hmin (hmin_le i hi)
  have hS_pos : 0 < bkgAdjSum b := by
    unfold bkgAdjSum
    have h0 := hadj_lb 0 (by omega)
    have h1 := hadj_lb 1 (by omega)
    have h2 := hadj_lb 2 (by omega)
    have h3 := hadj_lb 3 (by omega)
    linarith
  refine ⟨?_, ?_, ?_⟩
  · intro b' hb'
    unfold checkAndLoadBkg
    rw [if_pos hb']
  · intro hmin i
    unfold bkgAdjusted
    rw [if_pos hmin]
  · have hne : ¬ (b 0 = -1 ∨ b 1 = -1 ∨ b 2 = -1 ∨ b 3 = -1) := by
      intro hb
      rcases hb with h | h | h | h
      · have := hnn 0 (by omega); rw [h] at this; linarith
      · have := hnn 1 (by omega); rw [h] at this; linarith
      · have := hnn 2 (by omega); rw [h] at this; linarith
      · have := hnn 3 (by omega); rw [h] at this; linarith
    refine ⟨fun i => if i < 4 then bkgAdjusted b i / bkgAdjSum b else b i, ?_, ?_, ?_, ?_⟩
    · unfold checkAndLoadBkg
      rw [if_neg hne]
    · intro i hi
      show (if i < 4 then bkgAdjusted b i / bkgAdjSum b else b i) =
        bkgAdjusted b i / bkgAdjSum b
      rw [if_pos hi]
    · show (if (0:ℕ) < 4 then bkgAdjusted b 0 / bkgAdjSum b else b 0) +
        (if (1:ℕ) < 4 then bkgAdjusted b 1 / bkgAdjSum b else b 1) +
        (if (2:ℕ) < 4 then bkgAdjusted b 2 / bkgAdjSum b else b 2) +
        (if (3:ℕ) < 4 then bkgAdjusted b 3 / bkgAdjSum b else b 3) = 1
      rw [if_pos (by omega), if_pos (by omega), if_pos (by omega),
        if_pos (by omega)]
      rw [div_add_div_same, div_add_div_same, div_add_div_same]
      rw [show bkgAdjusted b 0 + bkgAdjusted b 1 + bkgAdjusted b 2 +
        bkgAdjusted b 3 = bkgAdjSum b from rfl]
      exact div_self (ne_of_gt hS_pos)
    · intro hS1 i hi
      show 1/1000 ≤ if i < 4 then bkgAdjusted b i / bkgAdjSum b else b i
      rw [if_pos hi]
      have hlb := hadj_lb i hi
      rw [le_div_iff₀ hS_pos]
      have hmul : (1/1000 : ℚ) * bkgAdjSum b ≤ (1/1000 : ℚ) * 1 :=
        mul_le_mul_of_nonneg_left hS1 (by norm_num)
      linarith [hlb]

/-- C10: every reverse-strand hit is gated by the same integer threshold
as the forward strand (the one `set_threshold` derived from the
forward-strand CDF), its reported p-value is obtained by indexing that
same forward-strand CDF with the reverse-complement window score
(`score2pval` applied identically on both strands), and its score is the
`scores_rc` window sum; no distribution is ever computed from
`scores_rc` — `fillCdf` reads only the forward `pwm`. -/
theorem c10_reverse_strand_gating (m : Motif) (bkg : ℕ → ℚ) (pv : ℚ)
    (s : List ℕ) (h : Hit)
    (hmem : h ∈ scanMotifSeq m (fillCdf m bkg)
      (setThreshold m (fillCdf m bkg) pv) true s)
    (hrc : h.rc = true) :
    h.pval = score2pval m (fillCdf m bkg) h.score ∧
    setThreshold m (fillCdf m bkg) pv ≤ h.score ∧
    h.score = scoreSubseqRC m s (h.start - 1) := by
  unfold scanMotifSeq at hmem
  by_cases hskip : s.length < m.size ∨ setThreshold m (fillCdf m bkg) pv = INTMAX
  · rw [if_pos hskip] at hmem
    cases hmem
  · rw [if_neg hskip] at hmem
    rcases List.mem_append.mp hmem with hf | hr
    · obtain ⟨w, _, _, hwh⟩ := mem_windowHits hf
      rw [hwh] at hrc
      simp at hrc
    · have hr' : h ∈ windowHits m (fillCdf m bkg)
          (setThreshold m (fillCdf m bkg) pv) s true := by
        simpa using hr
      obtain ⟨w, hw, hwT, hwh⟩ := mem_windowHits hr'
      subst hwh
      refine ⟨?_, ?_, ?_⟩
      · simp
      · simpa using hwT
      · simp

/-- A minimal concrete motif (width 1, all four letter scores 0) used to
instantiate the general theorems. -/
def m0 : Motif :=
  { size := 1,
    pwm := fun pos k => if pos = 0 ∧ k < 4 then 0 else if k = 4 then AMB else 0 }

theorem m0_pwmMin : pwmMin m0 = 0 := rfl

theorem m0_cellSpan : cellSpan m0 = 0 := rfl

theorem m0_pdfSize : pdfSize m0 = 1 := rfl

theorem m0_maxScore : motifMaxScore m0 = 0 := rfl

/-- The `m0`/uniform-background pipeline evaluated: the CDF starts at 1,
the best-score p-value is 1, and `setThreshold` at α = 2 gives 0. -/
theorem m0_facts :
    fillCdf m0 uniformBkg 0 = 1 ∧
    score2pval m0 (fillCdf m0 uniformBkg) (motifMaxScore m0) = 1 ∧
    setThreshold m0 (fillCdf m0 uniformBkg) 2 = 0 := by
  have hshift : ∀ j, shiftS m0 0 j = 0 := by
    intro j
    unfold shiftS
    rw [m0_pwmMin, sub_zero]
    show (m0.pwm 0 j).toNat = 0
    unfold m0
    simp only
    split_ifs <;> rfl
  have hraw : rawPdf m0 uniformBkg 0 = 1 := by
    show convStep m0 uniformBkg 0 (convLoop m0 uniformBkg 0) 0 = 1
    unfold convStep
    rw [if_pos (by omega)]
    have hterm : ∀ j ∈ Finset.range 4,
        (if shiftS m0 0 j ≤ 0 ∧ 0 - shiftS m0 0 j ≤ 0 * cellSpan m0 then
          convLoop m0 uniformBkg 0 (0 - shiftS m0 0 j) * uniformBkg j else 0) =
          (1 : ℚ)/4 := by
      intro j _
      rw [hshift j]
      rw [if_pos (by omega)]
      show (1 : ℚ) * (1/4) = 1/4
      norm_num
    rw [Finset.sum_congr rfl hterm, Finset.sum_const, Finset.card_range]
    norm_num
  have hcdf : fillCdf m0 uniformBkg 0 = 1 := by
    unfold fillCdf
    rw [show pdfSize m0 - 1 = 0 from rfl, List.range_zero, List.reverse_nil,
      List.foldl_nil]
    unfold normPdf
    have htot : pdfTotal m0 uniformBkg = 1 := by
      unfold pdfTotal
      rw [m0_pdfSize, Finset.sum_range_one]
      exact hraw
    rw [htot]
    norm_num
    exact hraw
  have hpv : score2pval m0 (fillCdf m0 uniformBkg) (motifMaxScore m0) = 1 := by
    unfold score2pval
    rw [m0_maxScore, m0_pwmMin]
    norm_num
    exact hcdf
  refine ⟨hcdf, hpv, ?_⟩
  unfold setThreshold
  rw [hpv, if_neg (by norm_num)]
  have hti : thresholdIdx (fillCdf m0 uniformBkg) (pdfSize m0) 2 = 0 := by
    rw [m0_pdfSize]
    unfold thresholdIdx firstLtAux
    rw [if_pos (by rw [hcdf]; norm_num)]
    rfl
  rw [hti, m0_pwmMin]
  norm_num

theorem m0_amb4 : ∀ pos, m0.pwm pos 4 = AMB := by
  intro pos
  show (if pos = 0 ∧ (4:ℕ) < 4 then 0 else if (4:ℕ) = 4 then AMB else 0) = AMB
  rw [if_neg (by omega), if_pos rfl]

theorem m0_bound : ∀ pos j, pos < m0.size → j < 4 →
    -100000 ≤ m0.pwm pos j ∧ m0.pwm pos j ≤ 100000 := by
  intro pos j h1 h2
  have hp : pos = 0 := by
    have : m0.size = 1 := rfl
    omega
  subst hp
  have hv : m0.pwm 0 j = 0 := by
    show (if (0:ℕ) = 0 ∧ j < 4 then 0 else if j = 4 then AMB else 0) = 0
    rw [if_pos ⟨rfl, h2⟩]
  rw [hv]
  norm_num

/-- Witness for C1: the amended construction theorem evaluated on the
one-column PPM built from `cexCol`. -/
theorem c1_witness :
    ((0:ℕ) < ([cexCol] : List (ℕ → ℚ)).length ∧ (0:ℕ) < 4) ∧
    (buildPPM 1000 1 uniformBkg [cexCol]).pwm 0 0 =
      truncToZero (Real.logb 2
        ((((([cexCol] : List (ℕ → ℚ)).getD 0 (fun _ => 0) 0) * ((1000:ℤ)) +
            (((1:ℤ)) : ℚ) / 4) / ((((1000:ℤ)) : ℚ) + ((1:ℤ)))) /
          uniformBkg 0 : ℚ) * 1000) :=
  ⟨⟨by norm_num, by norm_num⟩,
    (c1_pwm_construction 1000 1 uniformBkg [cexCol] m0 [] m0 0 0).1
      (by norm_num) (by norm_num)⟩

/-- Witness for C2: the exact-tail theorem evaluated on `m0` under the
uniform background. -/
theorem c2_witness :
    ((∑ j in Finset.range 4, uniformBkg j) = 1) ∧
    ((∀ t, t < pdfSize m0 → fillCdf m0 uniformBkg t = tailProb m0 uniformBkg t) ∧
     (∀ sc : ℤ, (sc - pwmMin m0 * m0.size).toNat < pdfSize m0 →
       score2pval m0 (fillCdf m0 uniformBkg) sc =
         tailProb m0 uniformBkg (sc - pwmMin m0 * m0.size).toNat)) :=
  ⟨(by simp [Finset.sum_range_succ, uniformBkg]), c2_fill_cdf_exact_tail m0 uniformBkg (by simp [Finset.sum_range_succ, uniformBkg])⟩

/-- Witness for C3: on `m0` with α = 2 the pvalue guard does not fire and
the threshold is `t* + W·s_min`. -/
theorem c3_witness :
    setThreshold m0 (fillCdf m0 uniformBkg) 2 =
      (thresholdIdx (fillCdf m0 uniformBkg) (pdfSize m0) 2 : ℤ) +
        pwmMin m0 * m0.size := by
  refine (c3_threshold m0 (fillCdf m0 uniformBkg) 2).2.1 ?_
  rw [m0_facts.2.1]
  norm_num

/-- Witness for C4: the single window of the sequence `N` against `m0`. -/
theorem c4_witness :
    (m0.size ≤ 50 ∧
      setThreshold m0 (fillCdf m0 uniformBkg) 2 ≠ INTMAX ∧
      0 + m0.size ≤ ([78] : List ℕ).length ∧
      char2index (([78] : List ℕ).getD (0 + 0) 0) = 4) ∧
    ((∃ p, p < m0.size ∧
        m0.pwm p (char2index (([78] : List ℕ).getD (0 + p) 0)) = AMB) ∧
     scoreSubseq m0 [78] 0 < setThreshold m0 (fillCdf m0 uniformBkg) 2 ∧
     scoreSubseqRC m0 [78] 0 < setThreshold m0 (fillCdf m0 uniformBkg) 2 ∧
     ∀ h ∈ scanMotifSeq m0 (fillCdf m0 uniformBkg)
         (setThreshold m0 (fillCdf m0 uniformBkg) 2) true [78],
       h.start ≠ 0 + 1) :=
  ⟨⟨by norm_num [m0], by rw [m0_facts.2.2]; norm_num [INTMAX],
    by norm_num [m0], by rfl⟩,
   c4_ambiguous_window_no_hit m0 uniformBkg 2 [78] 0
     (by norm_num [m0]) m0_amb4 m0_bound
     (by rw [m0_facts.2.2]; norm_num [INTMAX])
     (by norm_num [m0])
     ⟨0, by norm_num [m0], by rfl⟩⟩

/-- Witness for C5: the mirror identities and scan symmetry evaluated on
`m0`. -/
theorem c5_witness :
    (∀ pos, m0.pwm pos 4 = AMB) ∧
    ((∀ p, p < m0.size →
      fillPwmRC m0 (m0.size - 1 - p) 0 = m0.pwm p 3 ∧
      fillPwmRC m0 (m0.size - 1 - p) 1 = m0.pwm p 2 ∧
      fillPwmRC m0 (m0.size - 1 - p) 2 = m0.pwm p 1 ∧
      fillPwmRC m0 (m0.size - 1 - p) 3 = m0.pwm p 0 ∧
      fillPwmRC m0 p 4 = AMB) ∧
     (∀ s : List ℕ, ∀ i, i + m0.size ≤ s.length →
      scoreSubseqRC m0 s i = scoreSubseq m0 (revComp s) (s.length - m0.size - i))) :=
  ⟨m0_amb4, c5_rc_symmetry m0 m0_amb4⟩

/-- Witness for C6: validation of the uniform background (0.25 four
times). -/
theorem c6_witness :
    (∀ i, i < 4 → (0:ℚ) ≤ (fun _ => (1/4 : ℚ)) i) ∧
    ((∀ b' : ℕ → ℚ, (b' 0 = -1 ∨ b' 1 = -1 ∨ b' 2 = -1 ∨ b' 3 = -1) →
      checkAndLoadBkg b' = none) ∧
    (bkgMin (fun _ => (1/4 : ℚ)) < 1/1000 →
      ∀ i, bkgAdjusted (fun _ => (1/4 : ℚ)) i = (fun _ => (1/4 : ℚ)) i + 1/1000) ∧
    ∃ g, checkAndLoadBkg (fun _ => (1/4 : ℚ)) = some g ∧
      (∀ i, i < 4 → g i =
        bkgAdjusted (fun _ => (1/4 : ℚ)) i / bkgAdjSum (fun _ => (1/4 : ℚ))) ∧
      g 0 + g 1 + g 2 + g 3 = 1 ∧
      (bkgAdjSum (fun _ => (1/4 : ℚ)) ≤ 1 → ∀ i, i < 4 → 1/1000 ≤ g i)) :=
  ⟨fun i _ => by norm_num,
   c6_background_validation (fun _ => (1/4 : ℚ)) (fun i _ => by norm_num)⟩

/-- Witness for C8: the CDF-shape theorem evaluated on `m0` under the
uniform background. -/
theorem c8_witness :
    ((∀ j, j < 4 → 0 ≤ uniformBkg j) ∧ (∑ j in Finset.range 4, uniformBkg j) = 1) ∧
    (|fillCdf m0 uniformBkg 0 - 1| ≤ 1/10000 ∧
    (∀ t, t + 1 < pdfSize m0 → fillCdf m0 uniformBkg (t + 1) ≤ fillCdf m0 uniformBkg t) ∧
    fillCdf m0 uniformBkg (pdfSize m0 - 1) = normPdf m0 uniformBkg (pdfSize m0 - 1)) :=
  ⟨⟨fun j _ => by norm_num [uniformBkg], (by simp [Finset.sum_range_succ, uniformBkg])⟩,
   c8_cdf_shape m0 uniformBkg (fun j _ => by norm_num [uniformBkg]) (by simp [Finset.sum_range_succ, uniformBkg])⟩

/-- The reverse-strand hit that `m0` produces on the sequence `A` (both
strands score 0 = threshold). -/
def w10hit : Hit :=
  ⟨1, 1, true, score2pval m0 (fillCdf m0 uniformBkg) (scoreSubseqRC m0 [65] 0),
    scoreSubseqRC m0 [65] 0, [65]⟩

/-- The forward-strand hit preceding `w10hit` in the scan output. -/
def w10fwd : Hit :=
  ⟨1, 1, false, score2pval m0 (fillCdf m0 uniformBkg) (scoreSubseq m0 [65] 0),
    scoreSubseq m0 [65] 0, [65]⟩

/-- Witness for C10: the reverse-strand hit of `m0` on sequence `A`. -/
theorem c10_witness :
    (w10hit.rc = true) ∧
    (w10hit.pval = score2pval m0 (fillCdf m0 uniformBkg) w10hit.score ∧
     setThreshold m0 (fillCdf m0 uniformBkg) 2 ≤ w10hit.score ∧
     w10hit.score = scoreSubseqRC m0 [65] (w10hit.start - 1)) := by
  have hmem : w10hit ∈ scanMotifSeq m0 (fillCdf m0 uniformBkg)
      (setThreshold m0 (fillCdf m0 uniformBkg) 2) true [65] := by
    have hlist : scanMotifSeq m0 (fillCdf m0 uniformBkg)
        (setThreshold m0 (fillCdf m0 uniformBkg) 2) true [65] = [w10fwd, w10hit] := by
      rw [m0_facts.2.2]
      rfl
    rw [hlist]
    exact List.mem_cons_of_mem _ (List.mem_cons_self _ _)
  exact ⟨rfl, c10_reverse_strand_gating m0 uniformBkg 2 [65] w10hit hmem rfl⟩

end Minimotif
